import Mathlib

/-!
The program markov.c: an order-2 Markov chain text generator.

A shallow embedding of `src/markov.c` and theorems about it.

Modelling conventions.

* A C string (`char *`, NUL-terminated) is the list of its bytes without the
  terminator, each byte read as `unsigned char`.  `strcmp(a, b) == 0` is
  equality of the two lists.
* `char *pref[NPREF]` with `NPREF = 2` is the pair of its two slots.
* `statetab[NHASH]` is a function from the bucket index to the chain stored
  there, head of the chain first.  All buckets start out `NULL` (empty).
* A `State *` is the place of a state in the table: bucket and position in the
  chain.  `NULL` is `none`.
* `rand()` is a stream `rnd : Nat → Nat` of non-negative draws together with
  the number of draws made so far.
* The `int` counters `nstartPref` and `nmatch` are natural numbers (they count
  tokens read and suffix entries walked); `malloc` and `strdup` do not fail.
* `unsigned int` is 32 bits wide: the accumulator of `hash` wraps modulo 2^32.
-/

namespace Markov

/-! ## Data model -/

/-- The bytes of a C string. -/
abbrev Token := List Nat

/-- Number of words of a key: `NPREF`. -/
def NPREF : Nat := 2

/-- Size of the state hash table array: `NHASH`. -/
def NHASH : Nat := 4096

/-- The string `NONWORD[] = "\n"`: one line feed. -/
def NONWORD : Token := [10]

/-- The array `char *pref[NPREF]`, slot 0 and slot 1. -/
abbrev Prefix := Token × Token

/-- The struct `State`: the key words and the suffix chain, most recently added
suffix first.  The `next` link is the position in the bucket chain. -/
structure State where
  pref : Prefix
  suf : List Token
deriving DecidableEq, Repr

/-- The array `statetab`: bucket index to chain. -/
abbrev Table := Nat → List State

/-- The table at program start: every bucket is `NULL`. -/
def emptyTable : Table := fun _ => []

/-- A non-null `State *`: chain `h`, position `i` in that chain. -/
structure Ptr where
  h : Nat
  i : Nat
deriving DecidableEq, Repr

/-- Dereference of a state pointer. -/
def deref (tab : Table) (sp : Ptr) : Option State := (tab sp.h)[sp.i]?

/-! ## hash -/

/-- The inner loop of `hash` over one string: `h = 31 * h + *p` in 32-bit
unsigned arithmetic. -/
def hashStr (h : Nat) (s : Token) : Nat :=
  s.foldl (fun acc b => (31 * acc + b) % 2 ^ 32) h

/-- The function `hash`: both strings of the key in order, then `h % NHASH`. -/
def hash (s : Prefix) : Nat :=
  hashStr (hashStr 0 s.1) s.2 % NHASH

/-! ## lookup, addsuffix, add -/

/-- The chain walk of `lookup`: position of the first state of the chain whose
two key words both compare equal to the words of `p`, counted from `i`. -/
def scan (p : Prefix) : List State → Nat → Option Nat
  | [], _ => none
  | sp :: rest, i =>
    if p.1 = sp.pref.1 ∧ p.2 = sp.pref.2 then some i else scan p rest (i + 1)

/-- The function `lookup`: the pointer returned and the table afterwards. -/
def lookup (tab : Table) (p : Prefix) (create : Bool) : Option Ptr × Table :=
  let h := hash p
  match scan p (tab h) 0 with
  | some i => (some ⟨h, i⟩, tab)
  | none =>
    if create then
      (some ⟨h, 0⟩, fun j => if j = h then ⟨p, []⟩ :: tab j else tab j)
    else
      (none, tab)

/-- Put `suffix` in front of the suffix chain of the state at position `i`. -/
def consSuf (suffix : Token) : List State → Nat → List State
  | [], _ => []
  | sp :: rest, 0 => ⟨sp.pref, suffix :: sp.suf⟩ :: rest
  | sp :: rest, i + 1 => sp :: consSuf suffix rest i

/-- The function `addsuffix`: a new entry in front of the chain `sp->suf`. -/
def addsuffix (tab : Table) (sp : Ptr) (suffix : Token) : Table :=
  fun j => if j = sp.h then consSuf suffix (tab j) sp.i else tab j

/-- The function `add`: the table and the key window afterwards.  With
`create = 1` the pointer is never `NULL`. -/
def add (tab : Table) (pfx : Prefix) (suffix : Token) : Table × Prefix :=
  match lookup tab pfx true with
  | (some sp, tab1) => (addsuffix tab1 sp suffix, (pfx.2, suffix))
  | (none, tab1) => (tab1, (pfx.2, suffix))

/-! ## build and main -/

/-- The variables of `build` and of `main` up to the call of `generate`. -/
structure BuildState where
  tab : Table
  pfx : Prefix
  startPrefix : Prefix
  nstartPref : Nat
  k : Nat

/-- The character `s[0]` of a C string; the terminator when it is empty. -/
def firstChar (s : Token) : Nat := s.headD 0

/-- One turn of the `while` loop of `build` with the word `buf` just read. -/
def buildStep (rnd : Nat → Nat) (st : BuildState) (buf : Token) : BuildState :=
  let r := add st.tab st.pfx buf
  let first := firstChar r.2.1
  if 65 ≤ first ∧ first ≤ 90 then
    if rnd st.k % (st.nstartPref + 1) = 0 then
      { tab := r.1, pfx := r.2, startPrefix := r.2,
        nstartPref := st.nstartPref + 1, k := st.k + 1 }
    else
      { tab := r.1, pfx := r.2, startPrefix := st.startPrefix,
        nstartPref := st.nstartPref + 1, k := st.k + 1 }
  else
    { tab := r.1, pfx := r.2, startPrefix := st.startPrefix,
      nstartPref := st.nstartPref, k := st.k }

/-- The function `build` on the words that `fscanf` delivers, in order. -/
def build (rnd : Nat → Nat) (st : BuildState) (toks : List Token) : BuildState :=
  toks.foldl (buildStep rnd) st

/-- The state of `main` before `build`: both windows all `NONWORD`. -/
def mainInit : BuildState :=
  { tab := emptyTable, pfx := (NONWORD, NONWORD), startPrefix := (NONWORD, NONWORD),
    nstartPref := 0, k := 0 }

/-- The state of `main` after `build` and `add(prefix, NONWORD)`. -/
def mainBuild (rnd : Nat → Nat) (toks : List Token) : BuildState :=
  let st := build rnd mainInit toks
  let r := add st.tab st.pfx NONWORD
  { st with tab := r.1, pfx := r.2 }

/-! ## generate -/

/-- How a run of `generate` ends: the `for` loop ran `nwords` times, the
`break` on `NONWORD` was taken, a `NULL` state was dereferenced, or `w` was
read before any assignment to it. -/
inductive Halt where
  | completed
  | sentinel
  | nullState
  | uninitWord
deriving DecidableEq, Repr

/-- The variables of `generate`: `out` lists the words printed so far. -/
structure GenState where
  tab : Table
  pfx : Prefix
  w : Option Token
  k : Nat
  out : List Token

/-- The inner `for` loop of `generate` over a suffix chain: `nmatch` entries
walked so far, `k` draws made so far, `w` the current choice. -/
def sample {α : Type} (rnd : Nat → Nat) : List α → Nat → Nat → Option α → Option α × Nat
  | [], _, k, w => (w, k)
  | x :: rest, nmatch, k, w =>
    sample rnd rest (nmatch + 1) (k + 1)
      (if rnd k % (nmatch + 1) = 0 then some x else w)

/-- One turn of the outer `for` loop of `generate`. -/
def genStep (rnd : Nat → Nat) (st : GenState) : GenState × Option Halt :=
  match lookup st.tab st.pfx false with
  | (none, tab) => ({ st with tab := tab }, some Halt.nullState)
  | (some sp, tab) =>
    match deref tab sp with
    | none => ({ st with tab := tab }, some Halt.nullState)
    | some s =>
      let r := sample rnd s.suf 0 st.k st.w
      match r.1 with
      | none => ({ st with tab := tab, k := r.2 }, some Halt.uninitWord)
      | some word =>
        if word = NONWORD then
          ({ st with tab := tab, w := some word, k := r.2 }, some Halt.sentinel)
        else
          ({ tab := tab, pfx := (st.pfx.2, word), w := some word, k := r.2,
             out := st.out ++ [word] }, none)

/-- The outer `for` loop of `generate`, `n` turns left. -/
def genLoop (rnd : Nat → Nat) : Nat → GenState → GenState × Halt
  | 0, st => (st, Halt.completed)
  | n + 1, st =>
    match genStep rnd st with
    | (st1, some h) => (st1, h)
    | (st1, none) => genLoop rnd n st1

/-- The function `generate`: the key words are printed first, then the loop
runs while `i < nwords`. -/
def generate (rnd : Nat → Nat) (tab : Table) (pfx : Prefix) (nwords : Int) (k : Nat) :
    GenState × Halt :=
  genLoop rnd nwords.toNat
    { tab := tab, pfx := pfx, w := none, k := k, out := [pfx.1, pfx.2] }

/-- The function `main` from `build` on, with `nwords = atoi(argv[1])`. -/
def mainRun (rnd : Nat → Nat) (toks : List Token) (nwords : Int) : GenState × Halt :=
  let st := mainBuild rnd toks
  generate rnd st.tab st.startPrefix nwords st.k

/-- The words of `generate`'s output that follow the two key words. -/
def sampled (r : GenState × Halt) : List Token := r.1.out.drop 2

/-- The text as the model sees it: two leading and one trailing `NONWORD`. -/
def padded (toks : List Token) : List Token := NONWORD :: NONWORD :: toks ++ [NONWORD]

/-- Bytes of an ASCII string literal. -/
def tok (s : String) : Token := s.toList.map Char.toNat

/-! ## Specification-level views of the table -/

/-- The state stored for the key `P`: the first state of chain `hash P` whose
key words equal those of `P`. -/
def stateOf (T : Table) (P : Prefix) : Option State :=
  (T (hash P)).find? (fun st => decide (st.pref = P))

/-- Some state of the table has the key `P`. -/
def HasState (T : Table) (P : Prefix) : Prop := ∃ h st, st ∈ T h ∧ st.pref = P

/-- Every state sits in the chain of its hash value and no chain holds two
states with the same key. -/
structure WF (T : Table) : Prop where
  bucket : ∀ h st, st ∈ T h → hash st.pref = h
  nodup : ∀ h, ((T h).map State.pref).Nodup

/-- Tables that calls of `add` produce from the empty table. -/
inductive Reachable : Table → Prop where
  | empty : Reachable emptyTable
  | add (T : Table) (p : Prefix) (t : Token) : Reachable T → Reachable (add T p t).1

/-- The calls `add(prefix, t)` for the words `t` of `toks` in order, as `build`
and `main` make them: table and key window afterwards. -/
def addAll (r : Table × Prefix) (toks : List Token) : Table × Prefix :=
  toks.foldl (fun q t => add q.1 q.2 t) r

/-- The words that follow the adjacent pair `P` in the text `s`, in text order. -/
def observed : List Token → Prefix → List Token
  | [], _ => []
  | a :: rest, P =>
    (match rest with
      | b :: c :: _ => if (a, b) = P then [c] else []
      | _ => []) ++ observed rest P

/-- The naive reference accumulation, by positions: the words `s_{i+2}` over
all positions `i` with `(s_i, s_{i+1}) = P` and `s_{i+2}` defined. -/
def naiveSuffixes (s : List Token) (P : Prefix) : List Token :=
  (List.range s.length).filterMap
    (fun i => if s[i]? = some P.1 ∧ s[i + 1]? = some P.2 then s[i + 2]? else none)

/-- Number of suffix entries held by all states of the table. -/
def totalSuffixes (T : Table) : Nat :=
  ∑ h ∈ Finset.range NHASH, ((T h).map (fun st => st.suf.length)).sum

/-- The pair `P` stands at some position of the text `s` with a word after it. -/
def Seen (s : List Token) (P : Prefix) : Prop :=
  ∃ i, s[i]? = some P.1 ∧ s[i + 1]? = some P.2 ∧ i + 2 < s.length

/-- The words `a`, `b`, `w` stand at three consecutive positions of `s`. -/
def Consecutive (s : List Token) (a b w : Token) : Prop :=
  ∃ i, s[i]? = some a ∧ s[i + 1]? = some b ∧ s[i + 2]? = some w

/-- The variables of `generate` when its loop starts. -/
def genInit (tab : Table) (pfx : Prefix) (k : Nat) : GenState :=
  { tab := tab, pfx := pfx, w := none, k := k, out := [pfx.1, pfx.2] }

/-- The test `first >= 'A' && first <= 'Z'` on the first character of a word. -/
def startsUpper (t : Token) : Prop := 65 ≤ firstChar t ∧ firstChar t ≤ 90

instance (t : Token) : Decidable (startsUpper t) := by
  unfold startsUpper
  infer_instance

/-- The word read before the next one: the last word of `pre`, and `NONWORD`
when nothing was read yet. -/
def lastWord (pre : List Token) : Token := (pre.getLast?).getD NONWORD

/-- The invariant of the loop of `generate` on the table `T` that `main`
built from `toks`: the table is untouched, the window occurs in the text with
a word after it, the window is the last two words printed, and any three words
printed in a row stand in a row in the text. -/
def BuiltInv (toks : List Token) (T : Table) (st : GenState) : Prop :=
  st.tab = T ∧ Seen (padded toks) st.pfx
    ∧ (∃ front, st.out = front ++ [st.pfx.1, st.pfx.2])
    ∧ (∀ i a b w, st.out[i]? = some a → st.out[i + 1]? = some b → st.out[i + 2]? = some w →
        Consecutive (padded toks) a b w)

/-- A draw stream that starts with the draws `v`. -/
def drawsOf (v : List Nat) : Nat → Nat := fun j => v.getD j 0

/-- The draw vectors `(d_1, ..., d_n)` with `0 ≤ d_j < j`: the values that
`rand() % j` can take at the steps `j = 1, ..., n` of a walk. -/
def drawVectors : Nat → List (List Nat)
  | 0 => [[]]
  | n + 1 => (List.range (n + 1)).flatMap (fun d => (drawVectors n).map (fun v => v ++ [d]))

/-- The entry that the walk of `generate` over the chain `l` chooses under the
draws `v`, starting as `generate` does with `nmatch = 0`. -/
def chosen {α : Type} (l : List α) (v : List Nat) : Option α :=
  (sample (drawsOf v) l 0 0 none).1

/-- The call `memmove(a, a + 1, (N - 1) * sizeof(a[0]))` on an array of words:
the slots `0 .. N-2` take the old contents of the slots `1 .. N-1`, the slots
from `N-1` on keep theirs. -/
def memmoveLeft (N : Nat) (a : List Token) : List Token :=
  (a.drop 1).take (N - 1) ++ a.drop (N - 1)

/-- The window update of `add` and of `generate` on an array of `N` words:
the `memmove` and then `a[N-1] = t`. -/
def advanceN (N : Nat) (a : List Token) (t : Token) : List Token :=
  (memmoveLeft N a).set (N - 1) t

/-- The window update with `N = NPREF`. -/
def advance (a : List Token) (t : Token) : List Token := advanceN NPREF a t

/-- The windows that `build` records as sentence-start candidates when it reads
`toks` after the word `prev`, in input order: for every word `t` read while the
word before it starts with an upper-case letter, the window `(that word, t)`. -/
def candidatesFrom (prev : Token) : List Token → List Prefix
  | [] => []
  | t :: rest => (if startsUpper prev then [(prev, t)] else []) ++ candidatesFrom t rest

/-- The candidates of a whole input: before the first word stands `NONWORD`. -/
def candidates (toks : List Token) : List Prefix := candidatesFrom NONWORD toks

/-- Tables that calls of `add` and of `lookup(., 1)` produce from the empty
table. -/
inductive Grown : Table → Prop where
  | empty : Grown emptyTable
  | add (T : Table) (p : Prefix) (t : Token) : Grown T → Grown (add T p t).1
  | lookup (T : Table) (p : Prefix) : Grown T → Grown (lookup T p true).2

/-- The accumulation `h = 31 * h + b` over the bytes `s` without any wraparound. -/
def polyAcc (h : Nat) (s : List Nat) : Nat :=
  s.foldl (fun acc b => 31 * acc + b) h

/-- The sum of `b_j * 31 ^ (L - j)` over the bytes `b_1, ..., b_L`, in unbounded
arithmetic (places counted from 0 here, so the exponent is `L - 1 - j`). -/
def polySum (bs : List Nat) : Nat :=
  ∑ j ∈ Finset.range bs.length, bs.getD j 0 * 31 ^ (bs.length - 1 - j)

/-! ## Lemmas on scan, lookup and add -/

theorem pref_cond (p : Prefix) (sp : State) :
    (p.1 = sp.pref.1 ∧ p.2 = sp.pref.2) ↔ sp.pref = p := by
  constructor
  · rintro ⟨h1, h2⟩
    exact (Prod.ext h1 h2).symm
  · intro h
    subst h
    exact ⟨rfl, rfl⟩

theorem scan_shift (p : Prefix) (l : List State) (i : Nat) :
    scan p l i = (scan p l 0).map (fun j => j + i) := by
  induction l generalizing i with
  | nil => simp [scan]
  | cons sp rest ih =>
    by_cases h : p.1 = sp.pref.1 ∧ p.2 = sp.pref.2
    · simp [scan, h]
    · simp only [scan, h, if_false]
      rw [ih (i + 1), ih (0 + 1)]
      cases scan p rest 0 with
      | none => simp
      | some j => simp; omega

theorem scan_cons (p : Prefix) (sp : State) (rest : List State) :
    scan p (sp :: rest) 0
      = if sp.pref = p then some 0 else (scan p rest 0).map (fun j => j + 1) := by
  by_cases h : sp.pref = p
  · have h2 := (pref_cond p sp).2 h
    simp [scan, h, h2]
  · have h2 : ¬ (p.1 = sp.pref.1 ∧ p.2 = sp.pref.2) := fun hc => h ((pref_cond p sp).1 hc)
    simp only [scan, h, h2, if_false]
    exact scan_shift p rest (0 + 1)

theorem scan_none_iff (p : Prefix) (l : List State) :
    scan p l 0 = none ↔ ∀ st ∈ l, st.pref ≠ p := by
  induction l with
  | nil => simp [scan]
  | cons sp rest ih =>
    rw [scan_cons]
    by_cases h : sp.pref = p
    · simp [h]
    · simp [h, ih]

theorem scan_none_find (p : Prefix) (l : List State) :
    scan p l 0 = none ↔ l.find? (fun st => decide (st.pref = p)) = none := by
  rw [scan_none_iff]
  simp

theorem scan_some_find (p : Prefix) (l : List State) (i : Nat) (h : scan p l 0 = some i) :
    ∃ st, l[i]? = some st ∧ st.pref = p ∧ l.find? (fun s => decide (s.pref = p)) = some st := by
  induction l generalizing i with
  | nil => simp [scan] at h
  | cons sp rest ih =>
    rw [scan_cons] at h
    by_cases hp : sp.pref = p
    · simp only [hp, if_true, Option.some.injEq] at h
      subst h
      exact ⟨sp, by simp, hp, by simp [hp]⟩
    · simp only [hp, if_false] at h
      cases hs : scan p rest 0 with
      | none => simp [hs] at h
      | some j =>
        simp only [hs, Option.map_some', Option.some.injEq] at h
        subst h
        obtain ⟨st, h1, h2, h3⟩ := ih j hs
        exact ⟨st, by simpa using h1, h2, by simp [hp, h3]⟩

theorem consSuf_map_pref (t : Token) (l : List State) (i : Nat) :
    (consSuf t l i).map State.pref = l.map State.pref := by
  induction l generalizing i with
  | nil => simp [consSuf]
  | cons sp rest ih =>
    cases i with
    | zero => simp [consSuf]
    | succ i => simp [consSuf, ih]

theorem find_consSuf (p q : Prefix) (t : Token) (l : List State) (i : Nat)
    (h : scan p l 0 = some i) :
    (consSuf t l i).find? (fun s => decide (s.pref = q))
      = if q = p then (l.find? (fun s => decide (s.pref = p))).map
            (fun st => ⟨st.pref, t :: st.suf⟩)
        else l.find? (fun s => decide (s.pref = q)) := by
  induction l generalizing i with
  | nil => simp [scan] at h
  | cons sp rest ih =>
    rw [scan_cons] at h
    by_cases hp : sp.pref = p
    · simp only [hp, if_true, Option.some.injEq] at h
      subst h
      by_cases hq : q = p
      · subst hq
        simp [consSuf, hp]
      · have hq2 : ¬ p = q := fun hc => hq hc.symm
        simp [consSuf, hp, hq, hq2]
    · simp only [hp, if_false] at h
      cases hs : scan p rest 0 with
      | none => simp [hs] at h
      | some j =>
        simp only [hs, Option.map_some', Option.some.injEq] at h
        subst h
        have ih2 := ih j hs
        by_cases hq : q = p
        · subst hq
          simp only [consSuf, if_true] at ih2 ⊢
          simp [hp, ih2]
        · simp only [hq, if_false] at ih2 ⊢
          by_cases hsq : sp.pref = q
          · simp [consSuf, hsq]
          · simp [consSuf, hsq, ih2]

theorem add_snd (T : Table) (P : Prefix) (t : Token) : (add T P t).2 = (P.2, t) := by
  unfold add
  split <;> rfl

theorem lookup_some (T : Table) (p : Prefix) (c : Bool) (i : Nat)
    (h : scan p (T (hash p)) 0 = some i) : lookup T p c = (some ⟨hash p, i⟩, T) := by
  simp [lookup, h]

theorem lookup_none_false (T : Table) (p : Prefix) (h : scan p (T (hash p)) 0 = none) :
    lookup T p false = (none, T) := by
  simp [lookup, h]

theorem lookup_none_true (T : Table) (p : Prefix) (h : scan p (T (hash p)) 0 = none) :
    lookup T p true
      = (some ⟨hash p, 0⟩, fun j => if j = hash p then ⟨p, []⟩ :: T j else T j) := by
  simp [lookup, h]

theorem add_tab_apply (T : Table) (P : Prefix) (t : Token) (j : Nat) :
    (add T P t).1 j
      = if j = hash P then
          (match scan P (T j) 0 with
            | some i => consSuf t (T j) i
            | none => ⟨P, [t]⟩ :: T j)
        else T j := by
  unfold add
  cases hs : scan P (T (hash P)) 0 with
  | none =>
    rw [lookup_none_true T P hs]
    by_cases hj : j = hash P
    · subst hj
      simp [addsuffix, consSuf, hs]
    · simp [addsuffix, hj]
  | some i =>
    rw [lookup_some T P true i hs]
    by_cases hj : j = hash P
    · subst hj
      simp [addsuffix, hs]
    · simp [addsuffix, hj]

theorem stateOf_add (T : Table) (P Q : Prefix) (t : Token) :
    stateOf (add T P t).1 Q
      = if Q = P then some ⟨P, t :: ((stateOf T P).map State.suf).getD []⟩
        else stateOf T Q := by
  unfold stateOf
  rw [add_tab_apply]
  by_cases hQ : Q = P
  · subst hQ
    simp only [if_true]
    cases hs : scan Q (T (hash Q)) 0 with
    | none =>
      have hn := (scan_none_find Q _).1 hs
      simp [hn]
    | some i =>
      obtain ⟨st, _, h2, h3⟩ := scan_some_find Q _ i hs
      simp only []
      rw [find_consSuf Q Q t _ i hs, h3]
      simp [h2]
  · simp only [hQ, if_false]
    by_cases hh : hash Q = hash P
    · simp only [hh, if_true]
      cases hs : scan P (T (hash P)) 0 with
      | none =>
        have hPQ : ¬ P = Q := fun hc => hQ hc.symm
        simp [hPQ]
      | some i =>
        simp only []
        rw [find_consSuf P Q t _ i hs]
        simp [hQ]
    · simp [hh]

theorem hash_lt (P : Prefix) : hash P < NHASH := by
  unfold hash
  exact Nat.mod_lt _ (by decide)

theorem consSuf_mem (t : Token) (l : List State) (i : Nat) (st : State)
    (h : st ∈ consSuf t l i) : ∃ st0 ∈ l, st0.pref = st.pref := by
  have hm : st.pref ∈ (consSuf t l i).map State.pref := List.mem_map_of_mem _ h
  rw [consSuf_map_pref] at hm
  obtain ⟨st0, h0, h1⟩ := List.mem_map.1 hm
  exact ⟨st0, h0, h1⟩

theorem WF_empty : WF emptyTable := by
  constructor
  · intro h st hst
    simp [emptyTable] at hst
  · intro h
    simp [emptyTable]

theorem WF_add (T : Table) (P : Prefix) (t : Token) (hT : WF T) : WF (add T P t).1 := by
  constructor
  · intro h st hst
    rw [add_tab_apply] at hst
    by_cases hj : h = hash P
    · simp only [hj, if_true] at hst
      cases hs : scan P (T (hash P)) 0 with
      | none =>
        simp only [hs, List.mem_cons] at hst
        rcases hst with rfl | hst
        · exact hj.symm
        · rw [hj]
          exact hT.bucket _ _ hst
      | some i =>
        simp only [hs] at hst
        obtain ⟨st0, h0, h1⟩ := consSuf_mem t _ i st hst
        rw [← h1, hj]
        exact hT.bucket _ _ h0
    · simp only [hj, if_false] at hst
      exact hT.bucket _ _ hst
  · intro h
    rw [add_tab_apply]
    by_cases hj : h = hash P
    · simp only [hj, if_true]
      cases hs : scan P (T (hash P)) 0 with
      | none =>
        simp only [List.map_cons, List.nodup_cons]
        refine ⟨?_, hT.nodup _⟩
        intro hm
        obtain ⟨st0, h0, h1⟩ := List.mem_map.1 hm
        exact (scan_none_iff P _).1 hs st0 h0 h1
      | some i =>
        simp only []
        rw [consSuf_map_pref]
        exact hT.nodup _
    · simp only [hj, if_false]
      exact hT.nodup _

theorem Reachable.wf {T : Table} (h : Reachable T) : WF T := by
  induction h with
  | empty => exact WF_empty
  | add T p t _ ih => exact WF_add T p t ih

/-- In a well-formed table, a state found anywhere is the state of its key. -/
theorem WF.stateOf_of_mem {T : Table} (hT : WF T) {h : Nat} {st : State} (hst : st ∈ T h) :
    stateOf T st.pref = some st := by
  have hb := hT.bucket h st hst
  unfold stateOf
  rw [hb]
  have hnd := hT.nodup h
  cases hf : (T h).find? (fun s => decide (s.pref = st.pref)) with
  | none =>
    rw [List.find?_eq_none] at hf
    have := hf st hst
    simp at this
  | some st1 =>
    have hm : st1 ∈ T h := List.mem_of_find?_eq_some hf
    have hp : st1.pref = st.pref := by
      have := List.find?_some hf
      simpa using this
    have := List.inj_on_of_nodup_map hnd hm hst hp
    rw [this]

theorem stateOf_mem {T : Table} {P : Prefix} {st : State} (h : stateOf T P = some st) :
    st ∈ T (hash P) ∧ st.pref = P := by
  unfold stateOf at h
  refine ⟨List.mem_of_find?_eq_some h, ?_⟩
  have := List.find?_some h
  simpa using this

theorem WF.hasState_iff {T : Table} (hT : WF T) (P : Prefix) :
    HasState T P ↔ (stateOf T P).isSome = true := by
  constructor
  · rintro ⟨h, st, hst, hp⟩
    rw [← hp, hT.stateOf_of_mem hst]
    rfl
  · intro h
    cases hs : stateOf T P with
    | none => simp [hs] at h
    | some st =>
      obtain ⟨h1, h2⟩ := stateOf_mem hs
      exact ⟨_, st, h1, h2⟩

/-! ## The table that build leaves -/

theorem buildStep_tab_pfx (rnd : Nat → Nat) (st : BuildState) (t : Token) :
    ((buildStep rnd st t).tab, (buildStep rnd st t).pfx) = add st.tab st.pfx t := by
  unfold buildStep
  simp only []
  split_ifs <;> rfl

theorem build_tab_pfx (rnd : Nat → Nat) (st : BuildState) (toks : List Token) :
    ((build rnd st toks).tab, (build rnd st toks).pfx) = addAll (st.tab, st.pfx) toks := by
  induction toks generalizing st with
  | nil => rfl
  | cons t rest ih =>
    have h := ih (buildStep rnd st t)
    rw [buildStep_tab_pfx] at h
    simpa [build, addAll] using h

theorem mainBuild_tab_pfx (rnd : Nat → Nat) (toks : List Token) :
    ((mainBuild rnd toks).tab, (mainBuild rnd toks).pfx)
      = addAll (emptyTable, (NONWORD, NONWORD)) (toks ++ [NONWORD]) := by
  have h := build_tab_pfx rnd mainInit toks
  have e : addAll (emptyTable, (NONWORD, NONWORD)) (toks ++ [NONWORD])
      = add (addAll (emptyTable, (NONWORD, NONWORD)) toks).1
          (addAll (emptyTable, (NONWORD, NONWORD)) toks).2 NONWORD := by
    simp [addAll, List.foldl_append]
  rw [e]
  have h2 : addAll (emptyTable, (NONWORD, NONWORD)) toks
      = ((build rnd mainInit toks).tab, (build rnd mainInit toks).pfx) := h.symm
  rw [h2]
  rfl

theorem addAll_cons (T : Table) (P : Prefix) (t : Token) (rest : List Token) :
    addAll (T, P) (t :: rest) = addAll ((add T P t).1, (P.2, t)) rest := by
  simp only [addAll, List.foldl_cons]
  rw [← add_snd T P t]

theorem addAll_reachable (T : Table) (P : Prefix) (toks : List Token) (hT : Reachable T) :
    Reachable (addAll (T, P) toks).1 := by
  induction toks generalizing T P with
  | nil => exact hT
  | cons t rest ih =>
    rw [addAll_cons]
    exact ih _ _ (Reachable.add T P t hT)

theorem mainBuild_reachable (rnd : Nat → Nat) (toks : List Token) :
    Reachable (mainBuild rnd toks).tab := by
  have h := congrArg Prod.fst (mainBuild_tab_pfx rnd toks)
  simp only at h
  rw [h]
  exact addAll_reachable _ _ _ Reachable.empty

theorem observed_cons3 (a b c : Token) (rest : List Token) (P : Prefix) :
    observed (a :: b :: c :: rest) P
      = (if (a, b) = P then [c] else []) ++ observed (b :: c :: rest) P := rfl

theorem observed_short (a b : Token) (P : Prefix) : observed [a, b] P = [] := rfl

/-- The state of a key after a run of `add` calls from the window `(a, b)`:
what was there before with the observed followers put in front, last first. -/
theorem stateOf_addAll (T : Table) (a b : Token) (toks : List Token) (Q : Prefix) :
    stateOf (addAll (T, (a, b)) toks).1 Q
      = if observed (a :: b :: toks) Q = [] then stateOf T Q
        else some ⟨Q, (observed (a :: b :: toks) Q).reverse
              ++ ((stateOf T Q).map State.suf).getD []⟩ := by
  induction toks generalizing T a b with
  | nil => simp [addAll, observed_short]
  | cons t rest ih =>
    rw [addAll_cons, observed_cons3]
    simp only []
    rw [ih, stateOf_add]
    by_cases hQ : Q = (a, b)
    · subst hQ
      by_cases ho : observed (b :: t :: rest) (a, b) = []
      · simp [ho]
      · simp [ho]
    · have hQ2 : ¬ (a, b) = Q := fun hc => hQ hc.symm
      simp [hQ, hQ2]

theorem stateOf_empty (Q : Prefix) : stateOf emptyTable Q = none := by
  simp [stateOf, emptyTable]

theorem stateOf_mainBuild (rnd : Nat → Nat) (toks : List Token) (Q : Prefix) :
    stateOf (mainBuild rnd toks).tab Q
      = if observed (padded toks) Q = [] then none
        else some ⟨Q, (observed (padded toks) Q).reverse⟩ := by
  have h := congrArg Prod.fst (mainBuild_tab_pfx rnd toks)
  simp only at h
  rw [h, stateOf_addAll, stateOf_empty]
  simp [padded]

theorem naiveSuffixes_cons (a : Token) (rest : List Token) (P : Prefix) :
    naiveSuffixes (a :: rest) P
      = (match rest with
          | b :: c :: _ => if (a, b) = P then [c] else []
          | _ => []) ++ naiveSuffixes rest P := by
  unfold naiveSuffixes
  simp only [List.length_cons, List.range_succ_eq_map, List.filterMap_cons, List.filterMap_map]
  have htail : ((fun i => if (a :: rest)[i]? = some P.1 ∧ (a :: rest)[i + 1]? = some P.2
        then (a :: rest)[i + 2]? else none) ∘ Nat.succ)
      = (fun i => if rest[i]? = some P.1 ∧ rest[i + 1]? = some P.2
        then rest[i + 2]? else none) := by
    funext i
    simp
  rw [htail]
  match rest with
  | [] => simp
  | [b] => simp
  | b :: c :: more =>
    by_cases h : (a, b) = P
    · subst h
      simp
    · have h2 : ¬ (a = P.1 ∧ b = P.2) := fun hc => h (Prod.ext hc.1 hc.2)
      simp [h, h2]

theorem naiveSuffixes_eq_observed (s : List Token) (P : Prefix) :
    naiveSuffixes s P = observed s P := by
  induction s with
  | nil => rfl
  | cons a rest ih =>
    rw [naiveSuffixes_cons, ih]
    rfl

theorem consSuf_sum (t : Token) (l : List State) (i : Nat) (h : i < l.length) :
    ((consSuf t l i).map (fun st => st.suf.length)).sum
      = (l.map (fun st => st.suf.length)).sum + 1 := by
  induction l generalizing i with
  | nil => simp at h
  | cons sp rest ih =>
    cases i with
    | zero => simp [consSuf]; omega
    | succ i =>
      have h2 : i < rest.length := by simpa using h
      simp [consSuf, ih i h2]; omega

theorem scan_some_lt (p : Prefix) (l : List State) (i : Nat) (h : scan p l 0 = some i) :
    i < l.length := by
  obtain ⟨st, h1, _, _⟩ := scan_some_find p l i h
  by_contra hc
  rw [List.getElem?_eq_none (Nat.le_of_not_lt hc)] at h1
  cases h1

theorem totalSuffixes_add (T : Table) (P : Prefix) (t : Token) :
    totalSuffixes (add T P t).1 = totalSuffixes T + 1 := by
  unfold totalSuffixes
  have hb : ∀ h, (((add T P t).1 h).map (fun st => st.suf.length)).sum
      = ((T h).map (fun st => st.suf.length)).sum + (if h = hash P then 1 else 0) := by
    intro h
    rw [add_tab_apply]
    by_cases hj : h = hash P
    · simp only [hj, if_true]
      cases hs : scan P (T (hash P)) 0 with
      | none => simp; omega
      | some i =>
        simp only []
        exact consSuf_sum t _ i (scan_some_lt P _ i hs)
    · simp [hj]
  simp only [hb]
  rw [Finset.sum_add_distrib, Finset.sum_ite_eq', if_pos (Finset.mem_range.2 (hash_lt P))]

theorem totalSuffixes_addAll (T : Table) (P : Prefix) (toks : List Token) :
    totalSuffixes (addAll (T, P) toks).1 = totalSuffixes T + toks.length := by
  induction toks generalizing T P with
  | nil => simp [addAll]
  | cons t rest ih =>
    rw [addAll_cons, ih, totalSuffixes_add]
    simp only [List.length_cons]
    omega

theorem totalSuffixes_empty : totalSuffixes emptyTable = 0 := by
  simp [totalSuffixes, emptyTable]

theorem naiveSuffixes_ne_nil_iff (s : List Token) (P : Prefix) :
    naiveSuffixes s P ≠ []
      ↔ ∃ i, s[i]? = some P.1 ∧ s[i + 1]? = some P.2 ∧ i + 2 < s.length := by
  unfold naiveSuffixes
  rw [Ne, List.filterMap_eq_nil_iff]
  push_neg
  constructor
  · rintro ⟨i, _, hi⟩
    by_cases hc : s[i]? = some P.1 ∧ s[i + 1]? = some P.2
    · simp only [hc, and_self, if_true] at hi
      refine ⟨i, hc.1, hc.2, ?_⟩
      by_contra hlt
      exact hi (List.getElem?_eq_none (Nat.le_of_not_lt hlt))
    · simp [hc] at hi
  · rintro ⟨i, h1, h2, h3⟩
    refine ⟨i, List.mem_range.2 (by omega), ?_⟩
    simp only [h1, h2, and_self, if_true]
    rw [List.getElem?_eq_getElem h3]
    simp

/-- C1: after `build` and `main`'s `add(prefix, NONWORD)` the table is the
naive accumulation over `s = [NONWORD, NONWORD, t_1, ..., t_n, NONWORD]`: a
state with key `P` exists iff `P = (s_i, s_{i+1})` at a position `i` with
`s_{i+2}` defined; the suffix multiset of a state is the multiset of the
`s_{i+2}` over these positions; a key has one state only; and the table holds
`n + 1` suffix entries in all.  This holds for every token list and every draw
sequence. -/
theorem C1_table_is_naive_accumulation (rnd : Nat → Nat) (toks : List Token) :
    (∀ P : Prefix, HasState (mainBuild rnd toks).tab P
        ↔ ∃ i, (padded toks)[i]? = some P.1 ∧ (padded toks)[i + 1]? = some P.2
            ∧ i + 2 < (padded toks).length)
    ∧ (∀ h st, st ∈ (mainBuild rnd toks).tab h →
        (↑st.suf : Multiset Token) = ↑(naiveSuffixes (padded toks) st.pref))
    ∧ (∀ h1 h2 st1 st2, st1 ∈ (mainBuild rnd toks).tab h1 →
        st2 ∈ (mainBuild rnd toks).tab h2 → st1.pref = st2.pref → st1 = st2)
    ∧ totalSuffixes (mainBuild rnd toks).tab = toks.length + 1 := by
  have hwf : WF (mainBuild rnd toks).tab := (mainBuild_reachable rnd toks).wf
  refine ⟨?_, ?_, ?_, ?_⟩
  · intro P
    rw [hwf.hasState_iff, stateOf_mainBuild, ← naiveSuffixes_ne_nil_iff,
      naiveSuffixes_eq_observed]
    by_cases ho : observed (padded toks) P = [] <;> simp [ho]
  · intro h st hst
    have h1 := hwf.stateOf_of_mem hst
    rw [stateOf_mainBuild] at h1
    by_cases ho : observed (padded toks) st.pref = []
    · simp [ho] at h1
    · simp only [ho, if_false, Option.some.injEq] at h1
      have h2 : st.suf = (observed (padded toks) st.pref).reverse := by
        rw [← h1]
      rw [h2, naiveSuffixes_eq_observed, Multiset.coe_reverse]
  · intro h1 h2 st1 st2 hm1 hm2 hp
    have e1 := hwf.stateOf_of_mem hm1
    have e2 := hwf.stateOf_of_mem hm2
    rw [hp, e2] at e1
    exact (Option.some.inj e1).symm
  · have h := congrArg Prod.fst (mainBuild_tab_pfx rnd toks)
    simp only at h
    rw [h, totalSuffixes_addAll, totalSuffixes_empty]
    simp

/-! ## The reservoir walk and one turn of generate -/

theorem sample_mem {α : Type} (rnd : Nat → Nat) (l : List α) (n k : Nat) (w : Option α)
    (x : α) (h : (sample rnd l n k w).1 = some x) : x ∈ l ∨ w = some x := by
  induction l generalizing n k w with
  | nil => right; simpa [sample] using h
  | cons y rest ih =>
    simp only [sample] at h
    rcases ih _ _ _ h with h1 | h1
    · left; exact List.mem_cons_of_mem _ h1
    · by_cases hc : rnd k % (n + 1) = 0
      · simp only [hc, if_true, Option.some.injEq] at h1
        left; rw [h1]; exact List.mem_cons_self _ _
      · simp only [hc, if_false] at h1
        right; exact h1

theorem sample_isSome {α : Type} (rnd : Nat → Nat) (l : List α) (n k : Nat) (y : α) :
    ∃ x, (sample rnd l n k (some y)).1 = some x := by
  induction l generalizing n k y with
  | nil => exact ⟨y, rfl⟩
  | cons z rest ih =>
    simp only [sample]
    by_cases hc : rnd k % (n + 1) = 0
    · simp only [hc, if_true]; exact ih _ _ _
    · simp only [hc, if_false]; exact ih _ _ _

theorem sample_zero {α : Type} (rnd : Nat → Nat) (l : List α) (k : Nat) (w : Option α)
    (hl : l ≠ []) : ∃ x ∈ l, (sample rnd l 0 k w).1 = some x := by
  cases l with
  | nil => exact absurd rfl hl
  | cons y rest =>
    have h0 : sample rnd (y :: rest) 0 k w = sample rnd rest 1 (k + 1) (some y) := by
      simp [sample, Nat.mod_one]
    rw [h0]
    obtain ⟨x, hx⟩ := sample_isSome rnd rest 1 (k + 1) y
    refine ⟨x, ?_, hx⟩
    rcases sample_mem rnd rest 1 (k + 1) (some y) x hx with h1 | h1
    · exact List.mem_cons_of_mem _ h1
    · rw [Option.some.inj h1]; exact List.mem_cons_self _ _

theorem lookup_false_none (T : Table) (p : Prefix) (h : stateOf T p = none) :
    lookup T p false = (none, T) :=
  lookup_none_false T p ((scan_none_find p _).2 h)

theorem lookup_found (T : Table) (p : Prefix) (c : Bool) (st : State)
    (h : stateOf T p = some st) :
    ∃ i, lookup T p c = (some ⟨hash p, i⟩, T) ∧ deref T ⟨hash p, i⟩ = some st := by
  cases hs : scan p (T (hash p)) 0 with
  | none =>
    have := (scan_none_find p _).1 hs
    unfold stateOf at h
    rw [this] at h
    cases h
  | some i =>
    obtain ⟨st1, h1, _, h3⟩ := scan_some_find p _ i hs
    unfold stateOf at h
    rw [h3] at h
    cases h
    exact ⟨i, lookup_some T p c i hs, h1⟩

theorem genStep_none (rnd : Nat → Nat) (st : GenState) (h : stateOf st.tab st.pfx = none) :
    genStep rnd st = (st, some Halt.nullState) := by
  unfold genStep
  rw [lookup_false_none _ _ h]

theorem genStep_some (rnd : Nat → Nat) (st : GenState) (s : State)
    (h : stateOf st.tab st.pfx = some s) :
    genStep rnd st
      = match (sample rnd s.suf 0 st.k st.w).1 with
        | none => ({ st with k := (sample rnd s.suf 0 st.k st.w).2 }, some Halt.uninitWord)
        | some word =>
          if word = NONWORD then
            ({ st with w := some word, k := (sample rnd s.suf 0 st.k st.w).2 },
              some Halt.sentinel)
          else
            ({ tab := st.tab, pfx := (st.pfx.2, word), w := some word,
               k := (sample rnd s.suf 0 st.k st.w).2, out := st.out ++ [word] }, none) := by
  obtain ⟨i, h1, h2⟩ := lookup_found st.tab st.pfx false s h
  unfold genStep
  rw [h1]
  simp only [h2]

theorem genStep_some_uninit (rnd : Nat → Nat) (st : GenState) (s : State)
    (h : stateOf st.tab st.pfx = some s) (hw : (sample rnd s.suf 0 st.k st.w).1 = none) :
    genStep rnd st
      = ({ st with k := (sample rnd s.suf 0 st.k st.w).2 }, some Halt.uninitWord) := by
  rw [genStep_some rnd st s h]
  simp only [hw]

theorem genStep_some_sentinel (rnd : Nat → Nat) (st : GenState) (s : State)
    (h : stateOf st.tab st.pfx = some s)
    (hw : (sample rnd s.suf 0 st.k st.w).1 = some NONWORD) :
    genStep rnd st
      = ({ st with w := some NONWORD, k := (sample rnd s.suf 0 st.k st.w).2 },
          some Halt.sentinel) := by
  rw [genStep_some rnd st s h]
  simp only [hw, if_true]

theorem genStep_some_word (rnd : Nat → Nat) (st : GenState) (s : State) (word : Token)
    (h : stateOf st.tab st.pfx = some s)
    (hw : (sample rnd s.suf 0 st.k st.w).1 = some word) (hn : word ≠ NONWORD) :
    genStep rnd st
      = ({ tab := st.tab, pfx := (st.pfx.2, word), w := some word,
           k := (sample rnd s.suf 0 st.k st.w).2, out := st.out ++ [word] }, none) := by
  rw [genStep_some rnd st s h]
  simp only [hw, hn, if_false]

theorem genLoop_inv (rnd : Nat → Nat) (I : GenState → Prop)
    (hstep : ∀ st, I st → I (genStep rnd st).1) (n : Nat) (st : GenState) (h : I st) :
    I (genLoop rnd n st).1 := by
  induction n generalizing st with
  | zero => exact h
  | succ n ih =>
    have hs := hstep st h
    unfold genLoop
    cases hg : genStep rnd st with
    | mk st1 r =>
      rw [hg] at hs
      cases r with
      | none => exact ih st1 hs
      | some hl => exact hs

theorem generate_eq (rnd : Nat → Nat) (tab : Table) (pfx : Prefix) (nwords : Int) (k : Nat) :
    generate rnd tab pfx nwords k = genLoop rnd nwords.toNat (genInit tab pfx k) := rfl

/-! ## The text and the table of main -/

theorem mem_observed_iff (s : List Token) (P : Prefix) (w : Token) :
    w ∈ observed s P ↔ Consecutive s P.1 P.2 w := by
  rw [← naiveSuffixes_eq_observed]
  unfold naiveSuffixes Consecutive
  rw [List.mem_filterMap]
  constructor
  · rintro ⟨i, _, hi⟩
    by_cases hc : s[i]? = some P.1 ∧ s[i + 1]? = some P.2
    · simp only [hc, and_self, if_true] at hi
      exact ⟨i, hc.1, hc.2, hi⟩
    · simp [hc] at hi
  · rintro ⟨i, h1, h2, h3⟩
    have hlt : i + 2 < s.length := by
      by_contra hc
      rw [List.getElem?_eq_none (Nat.le_of_not_lt hc)] at h3
      cases h3
    refine ⟨i, List.mem_range.2 (by omega), ?_⟩
    simp [h1, h2, h3]

theorem seen_iff (s : List Token) (P : Prefix) : Seen s P ↔ observed s P ≠ [] := by
  rw [← naiveSuffixes_eq_observed, naiveSuffixes_ne_nil_iff]
  rfl

theorem padded_length (toks : List Token) : (padded toks).length = toks.length + 3 := by
  simp [padded]

theorem padded_last (toks : List Token) : (padded toks)[toks.length + 2]? = some NONWORD := by
  simp [padded]

theorem padded_tok (toks : List Token) (j : Nat) (h : j < toks.length) :
    (padded toks)[j + 2]? = toks[j]? := by
  simp [padded, List.getElem?_append_left h]

theorem padded_follow (toks : List Token) (a b w : Token)
    (h : Consecutive (padded toks) a b w) (hw : w ≠ NONWORD) : Seen (padded toks) (b, w) := by
  obtain ⟨i, _, h2, h3⟩ := h
  have hlt : i + 2 < (padded toks).length := by
    by_contra hc
    rw [List.getElem?_eq_none (Nat.le_of_not_lt hc)] at h3
    cases h3
  rw [padded_length] at hlt
  have hne : i ≠ toks.length := by
    intro hc
    rw [hc, padded_last] at h3
    exact hw (Option.some.inj h3).symm
  refine ⟨i + 1, h2, h3, ?_⟩
  rw [padded_length]
  omega

/-- One turn of the loop of `generate` on the table of `main`, at a window that
occurs in the text: a follower of the window is sampled; it is printed and
shifted into the window, or it is `NONWORD` and the loop is left. -/
theorem genStep_built (rnd rnd0 : Nat → Nat) (toks : List Token) (st : GenState)
    (hT : st.tab = (mainBuild rnd0 toks).tab) (hS : Seen (padded toks) st.pfx) :
    (∃ w k1, w ≠ NONWORD ∧ Consecutive (padded toks) st.pfx.1 st.pfx.2 w
        ∧ genStep rnd st = ({ tab := st.tab, pfx := (st.pfx.2, w), w := some w, k := k1,
                              out := st.out ++ [w] }, none))
    ∨ (∃ k1, Consecutive (padded toks) st.pfx.1 st.pfx.2 NONWORD
        ∧ genStep rnd st = ({ st with w := some NONWORD, k := k1 }, some Halt.sentinel)) := by
  have hne := (seen_iff _ _).1 hS
  have hst : stateOf st.tab st.pfx
      = some ⟨st.pfx, (observed (padded toks) st.pfx).reverse⟩ := by
    rw [hT, stateOf_mainBuild]
    simp [hne]
  have hstep := genStep_some rnd st _ hst
  have hl : (observed (padded toks) st.pfx).reverse ≠ [] := by simpa using hne
  obtain ⟨x, hx, hsx⟩ := sample_zero rnd _ st.k st.w hl
  simp only [hsx] at hstep
  have hcons : Consecutive (padded toks) st.pfx.1 st.pfx.2 x :=
    (mem_observed_iff _ _ _).1 (List.mem_reverse.1 hx)
  by_cases hw : x = NONWORD
  · right
    subst hw
    simp only [if_true] at hstep
    exact ⟨_, hcons, hstep⟩
  · left
    simp only [hw, if_false] at hstep
    exact ⟨x, _, hw, hcons, hstep⟩

/-! ## The window and the start window that build leaves -/

theorem build_snoc (rnd : Nat → Nat) (st : BuildState) (toks : List Token) (t : Token) :
    build rnd st (toks ++ [t]) = buildStep rnd (build rnd st toks) t := by
  simp [build, List.foldl_append]

theorem buildStep_pfx (rnd : Nat → Nat) (st : BuildState) (t : Token) :
    (buildStep rnd st t).pfx = (st.pfx.2, t) := by
  have h := congrArg Prod.snd (buildStep_tab_pfx rnd st t)
  simp only at h
  rw [h, add_snd]

/-- The window after `build`: the last two words of `NONWORD, NONWORD, toks`. -/
theorem build_pfx (rnd : Nat → Nat) (toks : List Token) :
    (NONWORD :: NONWORD :: toks)[toks.length]? = some (build rnd mainInit toks).pfx.1
    ∧ (NONWORD :: NONWORD :: toks)[toks.length + 1]? = some (build rnd mainInit toks).pfx.2 := by
  induction toks using List.reverseRecOn with
  | nil => simp [build, mainInit]
  | append_singleton l t ih =>
    rw [build_snoc, buildStep_pfx]
    obtain ⟨_, h2⟩ := ih
    constructor
    · simp only [List.length_append, List.length_singleton]
      rw [← h2]
      simp only [← List.cons_append]
      rw [List.getElem?_append_left (by simp)]
    · simp

theorem buildStep_fields (rnd : Nat → Nat) (st : BuildState) (t : Token) :
    (buildStep rnd st t).nstartPref
        = (if startsUpper st.pfx.2 then st.nstartPref + 1 else st.nstartPref)
    ∧ (buildStep rnd st t).k = (if startsUpper st.pfx.2 then st.k + 1 else st.k)
    ∧ (buildStep rnd st t).startPrefix
        = (if startsUpper st.pfx.2 ∧ rnd st.k % (st.nstartPref + 1) = 0 then (st.pfx.2, t)
           else st.startPrefix) := by
  unfold buildStep startsUpper
  simp only [add_snd]
  by_cases h1 : 65 ≤ firstChar st.pfx.2 ∧ firstChar st.pfx.2 ≤ 90
  · by_cases h2 : rnd st.k % (st.nstartPref + 1) = 0
    · simp [h1, h2]
    · simp [h1, h2]
  · simp [h1]

theorem build_pfx_snd (rnd : Nat → Nat) (pre : List Token) :
    (build rnd mainInit pre).pfx.2 = lastWord pre := by
  induction pre using List.reverseRecOn with
  | nil => rfl
  | append_singleton l t _ =>
    rw [build_snoc, buildStep_pfx]
    simp [lastWord]

theorem not_startsUpper_NONWORD : ¬ startsUpper NONWORD := by decide

/-- The start window after `build`: all `NONWORD` while no candidate was
counted, and from the first candidate on two adjacent words of the input the
first of which starts with an upper-case letter. -/
theorem build_startPrefix_count (rnd : Nat → Nat) (toks : List Token) :
    ((build rnd mainInit toks).nstartPref = 0
      ∧ (build rnd mainInit toks).startPrefix = (NONWORD, NONWORD))
    ∨ (0 < (build rnd mainInit toks).nstartPref
      ∧ ∃ j, toks[j]? = some (build rnd mainInit toks).startPrefix.1
        ∧ toks[j + 1]? = some (build rnd mainInit toks).startPrefix.2
        ∧ startsUpper (build rnd mainInit toks).startPrefix.1) := by
  induction toks using List.reverseRecOn with
  | nil => left; exact ⟨rfl, rfl⟩
  | append_singleton l t ih =>
    rw [build_snoc]
    obtain ⟨hn, _, h3⟩ := buildStep_fields rnd (build rnd mainInit l) t
    rw [h3, hn]
    by_cases hu : startsUpper (build rnd mainInit l).pfx.2
    · rw [if_pos hu]
      right
      refine ⟨Nat.succ_pos _, ?_⟩
      by_cases hd : rnd (build rnd mainInit l).k % ((build rnd mainInit l).nstartPref + 1) = 0
      · rw [if_pos ⟨hu, hd⟩]
        have hp := (build_pfx rnd l).2
        cases hl : l.length with
        | zero =>
          have : l = [] := List.length_eq_zero.1 hl
          subst this
          simp only [build, mainInit, List.foldl_nil] at hu
          exact absurd hu not_startsUpper_NONWORD
        | succ m =>
          rw [hl] at hp
          have hp2 : l[m]? = some (build rnd mainInit l).pfx.2 := by simpa using hp
          refine ⟨m, ?_, ?_, hu⟩
          · rw [List.getElem?_append_left (by omega)]
            exact hp2
          · rw [List.getElem?_append_right (by omega)]
            simp [hl]
      · rw [if_neg (fun hc => hd hc.2)]
        rcases ih with ⟨h0, _⟩ | ⟨_, j, h1, h2, h3⟩
        · rw [h0] at hd
          exact absurd (Nat.mod_one _) hd
        · have hlt : j + 1 < l.length := by
            by_contra hx
            rw [List.getElem?_eq_none (Nat.le_of_not_lt hx)] at h2
            cases h2
          refine ⟨j, ?_, ?_, h3⟩
          · rw [List.getElem?_append_left (by omega)]
            exact h1
          · rw [List.getElem?_append_left hlt]
            exact h2
    · rw [if_neg hu, if_neg (fun hc => hu hc.1)]
      rcases ih with h0 | ⟨hpos, j, h1, h2, h3⟩
      · left; exact h0
      · right
        have hlt : j + 1 < l.length := by
          by_contra hx
          rw [List.getElem?_eq_none (Nat.le_of_not_lt hx)] at h2
          cases h2
        refine ⟨hpos, j, ?_, ?_, h3⟩
        · rw [List.getElem?_append_left (by omega)]
          exact h1
        · rw [List.getElem?_append_left hlt]
          exact h2

theorem build_startPrefix (rnd : Nat → Nat) (toks : List Token) :
    (build rnd mainInit toks).startPrefix = (NONWORD, NONWORD)
    ∨ ∃ j, toks[j]? = some (build rnd mainInit toks).startPrefix.1
        ∧ toks[j + 1]? = some (build rnd mainInit toks).startPrefix.2
        ∧ startsUpper (build rnd mainInit toks).startPrefix.1 := by
  rcases build_startPrefix_count rnd toks with ⟨_, h⟩ | ⟨_, h⟩
  · left; exact h
  · right; exact h

theorem mainBuild_startPrefix (rnd : Nat → Nat) (toks : List Token) :
    (mainBuild rnd toks).startPrefix = (build rnd mainInit toks).startPrefix := rfl

theorem seen_startPrefix (rnd : Nat → Nat) (toks : List Token) :
    Seen (padded toks) (mainBuild rnd toks).startPrefix := by
  rw [mainBuild_startPrefix]
  rcases build_startPrefix rnd toks with h0 | ⟨j, h1, h2, _⟩
  · rw [h0]
    refine ⟨0, ?_, ?_, ?_⟩
    · simp [padded]
    · simp [padded]
    · rw [padded_length]; omega
  · have hlt : j + 1 < toks.length := by
      by_contra hx
      rw [List.getElem?_eq_none (Nat.le_of_not_lt hx)] at h2
      cases h2
    refine ⟨j + 2, ?_, ?_, ?_⟩
    · rw [padded_tok toks j (by omega)]; exact h1
    · rw [padded_tok toks (j + 1) hlt]; exact h2
    · rw [padded_length]; omega

/-! ## Runs of generate -/

/-- What one turn of the loop of `generate` does, on any table: a word other
than `NONWORD` is printed and shifted into the window, or the loop is left and
nothing is printed. -/
theorem genStep_cases (rnd : Nat → Nat) (st : GenState) :
    (∃ word, word ≠ NONWORD ∧ (genStep rnd st).2 = none
        ∧ (genStep rnd st).1.out = st.out ++ [word]
        ∧ (genStep rnd st).1.pfx = (st.pfx.2, word)
        ∧ (genStep rnd st).1.tab = st.tab)
    ∨ (∃ h, (genStep rnd st).2 = some h ∧ (genStep rnd st).1.out = st.out
        ∧ (genStep rnd st).1.pfx = st.pfx ∧ (genStep rnd st).1.tab = st.tab
        ∧ (h = Halt.sentinel → (genStep rnd st).1.w = some NONWORD)
        ∧ h ≠ Halt.completed) := by
  cases hs : stateOf st.tab st.pfx with
  | none =>
    right
    rw [genStep_none rnd st hs]
    exact ⟨Halt.nullState, rfl, rfl, rfl, rfl, (fun h => by cases h), (fun h => by cases h)⟩
  | some s =>
    cases hw : (sample rnd s.suf 0 st.k st.w).1 with
    | none =>
      right
      rw [genStep_some_uninit rnd st s hs hw]
      exact ⟨Halt.uninitWord, rfl, rfl, rfl, rfl, (fun h => by cases h), (fun h => by cases h)⟩
    | some word =>
      by_cases hn : word = NONWORD
      · right
        subst hn
        rw [genStep_some_sentinel rnd st s hs hw]
        exact ⟨Halt.sentinel, rfl, rfl, rfl, rfl, (fun _ => rfl), (fun h => by cases h)⟩
      · left
        rw [genStep_some_word rnd st s word hs hw hn]
        exact ⟨word, hn, rfl, rfl, rfl, rfl⟩

/-- The words a run of the loop prints, on any table: none is `NONWORD`, there
are as many as turns when the loop runs to its end and fewer when it is left. -/
theorem genLoop_out (rnd : Nat → Nat) (n : Nat) (st : GenState) :
    ∃ added, (genLoop rnd n st).1.out = st.out ++ added
      ∧ (∀ w ∈ added, w ≠ NONWORD)
      ∧ added.length ≤ n
      ∧ ((genLoop rnd n st).2 = Halt.completed → added.length = n)
      ∧ ((genLoop rnd n st).2 ≠ Halt.completed → added.length < n)
      ∧ ((genLoop rnd n st).2 = Halt.sentinel → (genLoop rnd n st).1.w = some NONWORD)
      ∧ (genLoop rnd n st).1.tab = st.tab := by
  induction n generalizing st with
  | zero =>
    refine ⟨[], by simp [genLoop], by simp, by simp, fun _ => rfl, ?_, ?_, rfl⟩
    · intro h; exact absurd rfl h
    · intro h; cases h
  | succ n ih =>
    unfold genLoop
    rcases genStep_cases rnd st with ⟨word, hw, h1, h2, _, h4⟩ | ⟨h, h1, h2, _, h4, h5, h6⟩
    · cases hg : genStep rnd st with
      | mk st1 r =>
        rw [hg] at h1 h2 h4
        simp only at h1 h2 h4
        subst h1
        simp only []
        obtain ⟨added, e1, e2, e3, e4, e5, e6, e7⟩ := ih st1
        refine ⟨word :: added, ?_, ?_, ?_, ?_, ?_, e6, ?_⟩
        · rw [e1, h2]; simp
        · intro w hm
          rcases List.mem_cons.1 hm with rfl | hm
          · exact hw
          · exact e2 w hm
        · simp; omega
        · intro hc; simp [e4 hc]
        · intro hc; have := e5 hc; simp; omega
        · rw [e7, h4]
    · cases hg : genStep rnd st with
      | mk st1 r =>
        rw [hg] at h1 h2 h4 h5
        simp only at h1 h2 h4 h5
        subst h1
        simp only []
        refine ⟨[], by simp [h2], by simp, by simp, ?_, by simp, h5, h4⟩
        intro hc
        exact absurd hc h6

theorem builtInv_init (rnd0 : Nat → Nat) (toks : List Token) (k : Nat) :
    BuiltInv toks (mainBuild rnd0 toks).tab
      (genInit (mainBuild rnd0 toks).tab (mainBuild rnd0 toks).startPrefix k) := by
  refine ⟨rfl, seen_startPrefix rnd0 toks, ⟨[], rfl⟩, ?_⟩
  intro i a b w _ _ h3
  simp [genInit] at h3

theorem triple_snoc (s out front : List Token) (p1 p2 x : Token)
    (hout : out = front ++ [p1, p2])
    (hold : ∀ i a b w, out[i]? = some a → out[i + 1]? = some b → out[i + 2]? = some w →
        Consecutive s a b w)
    (hnew : Consecutive s p1 p2 x) :
    ∀ i a b w, (out ++ [x])[i]? = some a → (out ++ [x])[i + 1]? = some b →
      (out ++ [x])[i + 2]? = some w → Consecutive s a b w := by
  intro i a b w h1 h2 h3
  have hlen : out.length = front.length + 2 := by simp [hout]
  have hlt : i + 2 < (out ++ [x]).length := by
    by_contra hc
    rw [List.getElem?_eq_none (Nat.le_of_not_lt hc)] at h3
    cases h3
  simp only [List.length_append, List.length_singleton] at hlt
  by_cases hi : i + 2 < out.length
  · rw [List.getElem?_append_left (by omega)] at h1 h2
    rw [List.getElem?_append_left hi] at h3
    exact hold i a b w h1 h2 h3
  · have hi2 : i = front.length := by omega
    subst hi2
    rw [List.getElem?_append_left (by omega)] at h1 h2
    rw [hout] at h1 h2
    rw [List.getElem?_append_right (by omega)] at h1 h2 h3
    simp only [Nat.sub_self, List.getElem?_cons_zero, Option.some.injEq] at h1
    have e2 : front.length + 1 - front.length = 1 := by omega
    rw [e2] at h2
    simp only [List.getElem?_cons_succ, List.getElem?_cons_zero, Option.some.injEq] at h2
    have e3 : front.length + 2 - out.length = 0 := by omega
    rw [e3] at h3
    simp only [List.getElem?_cons_zero, Option.some.injEq] at h3
    rw [← h1, ← h2, ← h3]
    exact hnew

theorem builtInv_step (rnd rnd0 : Nat → Nat) (toks : List Token) (st : GenState)
    (h : BuiltInv toks (mainBuild rnd0 toks).tab st) :
    BuiltInv toks (mainBuild rnd0 toks).tab (genStep rnd st).1 := by
  obtain ⟨hT, hS, ⟨front, hf⟩, htr⟩ := h
  rcases genStep_built rnd rnd0 toks st hT hS with ⟨w, k1, hw, hc, hg⟩ | ⟨k1, _, hg⟩
  · rw [hg]
    refine ⟨hT, padded_follow toks _ _ _ hc hw, ⟨front ++ [st.pfx.1], ?_⟩, ?_⟩
    · simp [hf]
    · exact triple_snoc _ _ front _ _ _ hf htr hc
  · rw [hg]
    exact ⟨hT, hS, ⟨front, hf⟩, htr⟩

theorem genLoop_halt_built (rnd rnd0 : Nat → Nat) (toks : List Token) (n : Nat)
    (st : GenState) (h : BuiltInv toks (mainBuild rnd0 toks).tab st) :
    (genLoop rnd n st).2 = Halt.completed ∨ (genLoop rnd n st).2 = Halt.sentinel := by
  induction n generalizing st with
  | zero => left; rfl
  | succ n ih =>
    have hs := builtInv_step rnd rnd0 toks st h
    unfold genLoop
    rcases genStep_built rnd rnd0 toks st h.1 h.2.1 with ⟨w, k1, _, _, hg⟩ | ⟨k1, _, hg⟩
    · rw [hg] at hs ⊢
      exact ih _ hs
    · rw [hg]
      right; rfl

theorem mainRun_eq (rnd : Nat → Nat) (toks : List Token) (nwords : Int) :
    mainRun rnd toks nwords
      = genLoop rnd nwords.toNat
          (genInit (mainBuild rnd toks).tab (mainBuild rnd toks).startPrefix
            (mainBuild rnd toks).k) := rfl

theorem mainRun_inv (rnd : Nat → Nat) (toks : List Token) (nwords : Int) :
    BuiltInv toks (mainBuild rnd toks).tab (mainRun rnd toks nwords).1 := by
  rw [mainRun_eq]
  exact genLoop_inv rnd _ (fun st h => builtInv_step rnd rnd toks st h) _ _
    (builtInv_init rnd toks _)

/-- C2: on the table and start window that `build` and the closing
`add(prefix, NONWORD)` leave, for every token list, draw sequence and `nwords`,
no `lookup(prefix, 0)` of `generate` returns `NULL`: the run never ends on a
`NULL` state, and the window the run holds at its end (so, taking `nwords` = 0,
1, 2, ..., every window a run ever holds) is found by `lookup` as an existing
state of the built table with that key. -/
theorem C2_generate_lookups_succeed (rnd : Nat → Nat) (toks : List Token) (nwords : Int) :
    (mainRun rnd toks nwords).2 ≠ Halt.nullState
    ∧ ∃ sp st, lookup (mainRun rnd toks nwords).1.tab (mainRun rnd toks nwords).1.pfx false
          = (some sp, (mainBuild rnd toks).tab)
        ∧ deref (mainBuild rnd toks).tab sp = some st
        ∧ st.pref = (mainRun rnd toks nwords).1.pfx := by
  constructor
  · rw [mainRun_eq]
    rcases genLoop_halt_built rnd rnd toks nwords.toNat _ (builtInv_init rnd toks _) with h | h
    · rw [h]; intro hc; cases hc
    · rw [h]; intro hc; cases hc
  · obtain ⟨hT, hS, _, _⟩ := mainRun_inv rnd toks nwords
    have hne := (seen_iff _ _).1 hS
    have hst : stateOf (mainBuild rnd toks).tab (mainRun rnd toks nwords).1.pfx
        = some ⟨(mainRun rnd toks nwords).1.pfx,
            (observed (padded toks) (mainRun rnd toks nwords).1.pfx).reverse⟩ := by
      rw [stateOf_mainBuild]
      simp [hne]
    obtain ⟨i, h1, h2⟩ := lookup_found _ _ false _ hst
    rw [hT]
    exact ⟨_, _, h1, h2, rfl⟩

/-- C3: every word `generate` prints after the two start words was seen in the
training text right after the window in force when it was chosen.  The window
is at any time the last two words printed, the output starts with the start
window, and any three words `a`, `b`, `w` printed in a row stand at three
consecutive positions of `[NONWORD, NONWORD, t_1, ..., t_n, NONWORD]`. -/
theorem C3_emitted_follow_window (rnd : Nat → Nat) (toks : List Token) (nwords : Int) :
    (∃ front, (mainRun rnd toks nwords).1.out
        = front ++ [(mainRun rnd toks nwords).1.pfx.1, (mainRun rnd toks nwords).1.pfx.2])
    ∧ (mainRun rnd toks nwords).1.out.take 2
        = [(mainBuild rnd toks).startPrefix.1, (mainBuild rnd toks).startPrefix.2]
    ∧ ∀ i a b w, (mainRun rnd toks nwords).1.out[i]? = some a →
        (mainRun rnd toks nwords).1.out[i + 1]? = some b →
        (mainRun rnd toks nwords).1.out[i + 2]? = some w →
        Consecutive (padded toks) a b w := by
  obtain ⟨_, _, hf, htr⟩ := mainRun_inv rnd toks nwords
  refine ⟨hf, ?_, htr⟩
  obtain ⟨added, e1, _⟩ := genLoop_out rnd nwords.toNat
    (genInit (mainBuild rnd toks).tab (mainBuild rnd toks).startPrefix (mainBuild rnd toks).k)
  rw [mainRun_eq, e1]
  simp [genInit]

theorem generate_out (rnd : Nat → Nat) (tab : Table) (pfx : Prefix) (nwords : Int) (k : Nat) :
    (generate rnd tab pfx nwords k).1.out
        = [pfx.1, pfx.2] ++ sampled (generate rnd tab pfx nwords k)
    ∧ (∀ w ∈ sampled (generate rnd tab pfx nwords k), w ≠ NONWORD)
    ∧ (sampled (generate rnd tab pfx nwords k)).length ≤ nwords.toNat
    ∧ ((generate rnd tab pfx nwords k).2 = Halt.completed →
        (sampled (generate rnd tab pfx nwords k)).length = nwords.toNat)
    ∧ ((generate rnd tab pfx nwords k).2 ≠ Halt.completed →
        (sampled (generate rnd tab pfx nwords k)).length < nwords.toNat)
    ∧ ((generate rnd tab pfx nwords k).2 = Halt.sentinel →
        (generate rnd tab pfx nwords k).1.w = some NONWORD)
    ∧ (generate rnd tab pfx nwords k).1.tab = tab := by
  obtain ⟨added, e1, e2, e3, e4, e5, e6, e7⟩ := genLoop_out rnd nwords.toNat (genInit tab pfx k)
  rw [← generate_eq] at e1 e4 e5 e6 e7
  have hs : sampled (generate rnd tab pfx nwords k) = added := by
    unfold sampled
    rw [e1]
    simp [genInit]
  rw [hs]
  exact ⟨by rw [e1]; rfl, e2, e3, e4, e5, e6, e7⟩

/-- The count of printed words on any table, for a run of `generate` that
neither meets a `NULL` state nor compares `w` before its first assignment: at
most `max(nwords, 0)` words follow the start window, fewer than `nwords`
exactly when the loop is left on a sampled `NONWORD`, and none of them is
`NONWORD`. -/
theorem generate_count_of_sound_run (rnd : Nat → Nat) (tab : Table) (pfx : Prefix)
    (nwords : Int)
    (k : Nat)
    (hnull : (generate rnd tab pfx nwords k).2 ≠ Halt.nullState)
    (hinit : (generate rnd tab pfx nwords k).2 ≠ Halt.uninitWord) :
    ((sampled (generate rnd tab pfx nwords k)).length : Int) ≤ max nwords 0
    ∧ (nwords ≤ 0 → sampled (generate rnd tab pfx nwords k) = [])
    ∧ (((sampled (generate rnd tab pfx nwords k)).length : Int) < nwords
        ↔ (generate rnd tab pfx nwords k).2 = Halt.sentinel)
    ∧ ((generate rnd tab pfx nwords k).2 = Halt.sentinel →
        (generate rnd tab pfx nwords k).1.w = some NONWORD)
    ∧ (∀ w ∈ sampled (generate rnd tab pfx nwords k), w ≠ NONWORD)
    ∧ (generate rnd tab pfx nwords k).1.out
        = [pfx.1, pfx.2] ++ sampled (generate rnd tab pfx nwords k) := by
  obtain ⟨h1, h2, h3, h4, h5, h6, _⟩ := generate_out rnd tab pfx nwords k
  refine ⟨?_, ?_, ?_, h6, h2, h1⟩
  · rw [← Int.toNat_eq_max]
    exact_mod_cast h3
  · intro hle
    have : nwords.toNat = 0 := Int.toNat_eq_zero.2 hle
    rw [this] at h3
    exact List.length_eq_zero.1 (Nat.le_zero.1 h3)
  · cases hh : (generate rnd tab pfx nwords k).2 with
    | completed =>
      have := h4 hh
      constructor
      · intro hlt
        omega
      · intro hc; cases hc
    | sentinel =>
      have := h5 (by rw [hh]; intro hc; cases hc)
      constructor
      · intro _; rfl
      · intro _
        omega
    | nullState => exact absurd hh hnull
    | uninitWord => exact absurd hh hinit

theorem mainRun_generate (rnd : Nat → Nat) (toks : List Token) (nwords : Int) :
    mainRun rnd toks nwords
      = generate rnd (mainBuild rnd toks).tab (mainBuild rnd toks).startPrefix nwords
          (mainBuild rnd toks).k := rfl

/-- C6: on every table that `add` calls produce from the empty table and for
every key `p`: when a state with key `p` (equal word by word, by content) is
in the table, `lookup(p, create)` returns that very state, whatever else its
chain holds, and leaves the table as it is; when there is none, `lookup(p, 0)`
returns `NULL` and `lookup(p, 1)` returns a new state with key `p` and no
suffix, put at the head of chain `hash(p)`. -/
theorem C6_lookup (T : Table) (hT : Reachable T) (p : Prefix) :
    (∀ h st, st ∈ T h → st.pref = p →
        ∀ c, ∃ sp, lookup T p c = (some sp, T) ∧ deref T sp = some st)
    ∧ (¬ HasState T p →
        lookup T p false = (none, T)
        ∧ ∃ sp, lookup T p true
              = (some sp, fun j => if j = hash p then ⟨p, []⟩ :: T j else T j)
            ∧ deref (fun j => if j = hash p then ⟨p, []⟩ :: T j else T j) sp
              = some ⟨p, []⟩) := by
  have hwf := hT.wf
  constructor
  · intro h st hst hp c
    have hs := hwf.stateOf_of_mem hst
    rw [hp] at hs
    obtain ⟨i, h1, h2⟩ := lookup_found T p c st hs
    exact ⟨_, h1, h2⟩
  · intro hno
    have hs : stateOf T p = none := by
      cases hq : stateOf T p with
      | none => rfl
      | some st =>
        obtain ⟨h1, h2⟩ := stateOf_mem hq
        exact absurd ⟨_, st, h1, h2⟩ hno
    have hsc := (scan_none_find p _).2 hs
    refine ⟨lookup_none_false T p hsc, ⟨hash p, 0⟩, lookup_none_true T p hsc, ?_⟩
    simp [deref]

/-- C6 at the table left by `add((NONWORD, NONWORD), "Hello")`. -/
theorem C6_lookup_witness :
    Reachable (add emptyTable (NONWORD, NONWORD) (tok "Hello")).1
    ∧ ((∀ h st, st ∈ (add emptyTable (NONWORD, NONWORD) (tok "Hello")).1 h →
          st.pref = (NONWORD, NONWORD) →
          ∀ c, ∃ sp, lookup (add emptyTable (NONWORD, NONWORD) (tok "Hello")).1
                (NONWORD, NONWORD) c
              = (some sp, (add emptyTable (NONWORD, NONWORD) (tok "Hello")).1)
            ∧ deref (add emptyTable (NONWORD, NONWORD) (tok "Hello")).1 sp = some st)
      ∧ (¬ HasState (add emptyTable (NONWORD, NONWORD) (tok "Hello")).1 (NONWORD, NONWORD) →
          lookup (add emptyTable (NONWORD, NONWORD) (tok "Hello")).1 (NONWORD, NONWORD) false
            = (none, (add emptyTable (NONWORD, NONWORD) (tok "Hello")).1)
          ∧ ∃ sp, lookup (add emptyTable (NONWORD, NONWORD) (tok "Hello")).1
                (NONWORD, NONWORD) true
              = (some sp, fun j => if j = hash (NONWORD, NONWORD)
                  then ⟨(NONWORD, NONWORD), []⟩
                    :: (add emptyTable (NONWORD, NONWORD) (tok "Hello")).1 j
                  else (add emptyTable (NONWORD, NONWORD) (tok "Hello")).1 j)
            ∧ deref (fun j => if j = hash (NONWORD, NONWORD)
                  then ⟨(NONWORD, NONWORD), []⟩
                    :: (add emptyTable (NONWORD, NONWORD) (tok "Hello")).1 j
                  else (add emptyTable (NONWORD, NONWORD) (tok "Hello")).1 j) sp
              = some ⟨(NONWORD, NONWORD), []⟩)) :=
  ⟨Reachable.add _ _ _ Reachable.empty,
    C6_lookup _ (Reachable.add _ _ _ Reachable.empty) (NONWORD, NONWORD)⟩

/-- C7: for every token list and draw sequence the start window that `build`
leaves is all `NONWORD` or a pair `(t_i, t_{i+1})` of adjacent input words whose
first word starts with an upper-case ASCII letter; and it is all `NONWORD`
whenever no input word starts with an upper-case ASCII letter. -/
theorem C7_start_prefix (rnd : Nat → Nat) (toks : List Token) :
    ((mainBuild rnd toks).startPrefix = (NONWORD, NONWORD)
      ∨ ∃ i, toks[i]? = some (mainBuild rnd toks).startPrefix.1
          ∧ toks[i + 1]? = some (mainBuild rnd toks).startPrefix.2
          ∧ startsUpper (mainBuild rnd toks).startPrefix.1)
    ∧ ((∀ t ∈ toks, ¬ startsUpper t) →
        (mainBuild rnd toks).startPrefix = (NONWORD, NONWORD)) := by
  rw [mainBuild_startPrefix]
  refine ⟨build_startPrefix rnd toks, ?_⟩
  intro hno
  rcases build_startPrefix rnd toks with h | ⟨j, h1, _, h3⟩
  · exact h
  · exact absurd h3 (hno _ (List.getElem?_mem h1))

/-- C8, the claim as stated fails: the first word "The" starts with an
upper-case letter and is not counted (no counter step, no draw); the next word
"cat" does not and is counted, and the start window then becomes the window
after the advance, `("The", "cat")`, not the window before it,
`(NONWORD, "The")`. -/
theorem C8_counterexample :
    startsUpper (tok "The")
    ∧ (build (fun _ => 0) mainInit [tok "The"]).nstartPref = 0
    ∧ (build (fun _ => 0) mainInit [tok "The"]).k = 0
    ∧ (build (fun _ => 0) mainInit [tok "The"]).pfx = (NONWORD, tok "The")
    ∧ ¬ startsUpper (tok "cat")
    ∧ (build (fun _ => 0) mainInit [tok "The", tok "cat"]).nstartPref = 1
    ∧ (build (fun _ => 0) mainInit [tok "The", tok "cat"]).k = 1
    ∧ (build (fun _ => 0) mainInit [tok "The", tok "cat"]).startPrefix
        = (tok "The", tok "cat") := by
  decide

/-- C8, amended: when `build` reads the word `t` after the words `pre`, `t` is
counted as a candidate (the counter goes up by one and one draw is made) if
and only if the word read just before `t` (the first slot of the window once
it was advanced with `t`; `NONWORD` for the first word) starts with an
upper-case ASCII letter; and when that draw modulo the new counter is 0 the
start window becomes the window after the advance, `(previous word, t)`;
in every other case the start window keeps its value. -/
theorem C8_candidate_rule (rnd : Nat → Nat) (pre : List Token) (t : Token) :
    (build rnd mainInit (pre ++ [t])).nstartPref
        = (if startsUpper (lastWord pre) then (build rnd mainInit pre).nstartPref + 1
           else (build rnd mainInit pre).nstartPref)
    ∧ (build rnd mainInit (pre ++ [t])).k
        = (if startsUpper (lastWord pre) then (build rnd mainInit pre).k + 1
           else (build rnd mainInit pre).k)
    ∧ (build rnd mainInit (pre ++ [t])).pfx = (lastWord pre, t)
    ∧ (build rnd mainInit (pre ++ [t])).startPrefix
        = (if startsUpper (lastWord pre)
              ∧ rnd (build rnd mainInit pre).k % ((build rnd mainInit pre).nstartPref + 1) = 0
           then (lastWord pre, t)
           else (build rnd mainInit pre).startPrefix) := by
  rw [build_snoc, buildStep_pfx, ← build_pfx_snd rnd pre]
  obtain ⟨h1, h2, h3⟩ := buildStep_fields rnd (build rnd mainInit pre) t
  exact ⟨h1, h2, rfl, h3⟩

/-- C9, the claim as stated fails: on the empty input the start window is all
`NONWORD` and `generate` prints it, so `NONWORD` is among the printed words. -/
theorem C9_counterexample :
    (mainRun (fun _ => 0) [] 5).1.out = [NONWORD, NONWORD]
    ∧ NONWORD ∈ (mainRun (fun _ => 0) [] 5).1.out := by
  decide

/-- C9, amended: for every training input without `NONWORD` among its words,
every count and draw sequence, the output is the start window followed by the
words printed in the loop; no word printed in the loop is `NONWORD`; and the
two start words are both `NONWORD` when `build` counted no candidate, and
neither is `NONWORD` when it counted one. -/
theorem C9_sentinel_emission (rnd : Nat → Nat) (toks : List Token) (nwords : Int)
    (htoks : ∀ t ∈ toks, t ≠ NONWORD) :
    (mainRun rnd toks nwords).1.out
        = [(mainBuild rnd toks).startPrefix.1, (mainBuild rnd toks).startPrefix.2]
          ++ sampled (mainRun rnd toks nwords)
    ∧ (∀ w ∈ sampled (mainRun rnd toks nwords), w ≠ NONWORD)
    ∧ (((mainBuild rnd toks).nstartPref = 0
          ∧ (mainBuild rnd toks).startPrefix = (NONWORD, NONWORD))
        ∨ (0 < (mainBuild rnd toks).nstartPref
          ∧ (mainBuild rnd toks).startPrefix.1 ≠ NONWORD
          ∧ (mainBuild rnd toks).startPrefix.2 ≠ NONWORD)) := by
  obtain ⟨h1, h2, _⟩ := generate_out rnd (mainBuild rnd toks).tab
    (mainBuild rnd toks).startPrefix nwords (mainBuild rnd toks).k
  rw [← mainRun_generate] at h1 h2
  refine ⟨h1, h2, ?_⟩
  rcases build_startPrefix_count rnd toks with h | ⟨hpos, j, e1, e2, _⟩
  · left; exact h
  · right
    exact ⟨hpos, htoks _ (List.getElem?_mem e1), htoks _ (List.getElem?_mem e2)⟩

/-- C9, amended, at the text "The cat" with `nwords = 3`. -/
theorem C9_sentinel_emission_witness :
    (∀ t ∈ [tok "The", tok "cat"], t ≠ NONWORD)
    ∧ ((mainRun (fun _ => 0) [tok "The", tok "cat"] 3).1.out
        = [(mainBuild (fun _ => 0) [tok "The", tok "cat"]).startPrefix.1,
            (mainBuild (fun _ => 0) [tok "The", tok "cat"]).startPrefix.2]
          ++ sampled (mainRun (fun _ => 0) [tok "The", tok "cat"] 3)
      ∧ (∀ w ∈ sampled (mainRun (fun _ => 0) [tok "The", tok "cat"] 3), w ≠ NONWORD)
      ∧ (((mainBuild (fun _ => 0) [tok "The", tok "cat"]).nstartPref = 0
            ∧ (mainBuild (fun _ => 0) [tok "The", tok "cat"]).startPrefix
                = (NONWORD, NONWORD))
          ∨ (0 < (mainBuild (fun _ => 0) [tok "The", tok "cat"]).nstartPref
            ∧ (mainBuild (fun _ => 0) [tok "The", tok "cat"]).startPrefix.1 ≠ NONWORD
            ∧ (mainBuild (fun _ => 0) [tok "The", tok "cat"]).startPrefix.2 ≠ NONWORD))) :=
  ⟨by decide, C9_sentinel_emission (fun _ => 0) [tok "The", tok "cat"] 3 (by decide)⟩

/-- C10: generation never changes the model.  On every table, `lookup(p, 0)`
returns the table as it was, whether or not `p` is found, and the table after
`generate` is the table before it, for every start window, `nwords` and draw
sequence and however the run ends. -/
theorem C10_generate_frame (rnd : Nat → Nat) (tab : Table) (pfx : Prefix) (nwords : Int)
    (k : Nat) :
    (∀ p, (lookup tab p false).2 = tab)
    ∧ (generate rnd tab pfx nwords k).1.tab = tab := by
  constructor
  · intro p
    cases hs : scan p (tab (hash p)) 0 with
    | none => rw [lookup_none_false tab p hs]
    | some i => rw [lookup_some tab p false i hs]
  · exact (generate_out rnd tab pfx nwords k).2.2.2.2.2.2

/-! ## Counting the draws of the reservoir walk -/

theorem sample_congr {α : Type} (rnd rnd1 : Nat → Nat) (l : List α) (m k : Nat)
    (w : Option α) (h : ∀ j, k ≤ j → j < k + l.length → rnd j = rnd1 j) :
    sample rnd l m k w = sample rnd1 l m k w := by
  induction l generalizing m k w with
  | nil => rfl
  | cons y rest ih =>
    simp only [sample]
    rw [h k (Nat.le_refl _) (by simp)]
    apply ih
    intro j h1 h2
    apply h j (by omega)
    simp only [List.length_cons]
    omega

theorem sample_snoc {α : Type} (rnd : Nat → Nat) (l : List α) (x : α) (m k : Nat)
    (w : Option α) :
    (sample rnd (l ++ [x]) m k w).1
      = if rnd (k + l.length) % (m + l.length + 1) = 0 then some x
        else (sample rnd l m k w).1 := by
  induction l generalizing m k w with
  | nil => simp [sample]
  | cons y rest ih =>
    simp only [List.cons_append, sample, List.length_cons]
    have ih2 := ih (m + 1) (k + 1) (if rnd k % (m + 1) = 0 then some y else w)
    have e1 : k + 1 + rest.length = k + (rest.length + 1) := by omega
    have e2 : m + 1 + rest.length + 1 = m + (rest.length + 1) + 1 := by omega
    rw [e1, e2] at ih2
    exact ih2

theorem drawVectors_length_of_mem (n : Nat) (v : List Nat) (h : v ∈ drawVectors n) :
    v.length = n := by
  induction n generalizing v with
  | zero =>
    simp only [drawVectors, List.mem_singleton] at h
    rw [h]; rfl
  | succ n ih =>
    simp only [drawVectors, List.mem_flatMap, List.mem_map] at h
    obtain ⟨d, _, v0, hv0, rfl⟩ := h
    simp [ih v0 hv0]

theorem chosen_snoc {α : Type} (l : List α) (x : α) (v : List Nat) (d : Nat)
    (hv : v.length = l.length) (hd : d < l.length + 1) :
    chosen (l ++ [x]) (v ++ [d]) = if d = 0 then some x else chosen l v := by
  unfold chosen
  rw [sample_snoc]
  have e1 : drawsOf (v ++ [d]) (0 + l.length) = d := by
    simp [drawsOf, ← hv, List.getD_eq_getElem?_getD]
  have e2 : sample (drawsOf (v ++ [d])) l 0 0 none = sample (drawsOf v) l 0 0 none := by
    apply sample_congr
    intro j _ h2
    have hj : j < v.length := by omega
    simp [drawsOf, List.getD_eq_getElem?_getD, List.getElem?_append_left hj]
  rw [e1, e2]
  have e3 : d % (0 + l.length + 1) = d := by
    rw [Nat.zero_add]
    exact Nat.mod_eq_of_lt hd
  rw [e3]

theorem countP_flatMap_sum {α β : Type} (p : β → Bool) (l : List α) (f : α → List β) :
    (l.flatMap f).countP p = (l.map (fun a => (f a).countP p)).sum := by
  induction l with
  | nil => rfl
  | cons a rest ih => simp [List.flatMap_cons, List.countP_append, ih]

theorem sum_map_const_of {α : Type} (l : List α) (f : α → Nat) (c : Nat)
    (h : ∀ a ∈ l, f a = c) : (l.map f).sum = l.length * c := by
  induction l with
  | nil => simp
  | cons a rest ih =>
    simp only [List.map_cons, List.sum_cons, List.length_cons]
    rw [h a (List.mem_cons_self _ _), ih (fun b hb => h b (List.mem_cons_of_mem _ hb))]
    ring

theorem drawVectors_length (n : Nat) : (drawVectors n).length = n.factorial := by
  induction n with
  | zero => rfl
  | succ n ih =>
    simp only [drawVectors]
    rw [← List.countP_true, countP_flatMap_sum,
      sum_map_const_of _ _ n.factorial (by intro d _; simp [ih])]
    simp [Nat.factorial_succ]

/-- The number of draw vectors under which the walk over `l` ends with the
entry `x` chosen is the number of places of `x` in `l` times `(n - 1)!`. -/
theorem countP_chosen {α : Type} [DecidableEq α] (l : List α) (x : α) :
    (drawVectors l.length).countP (fun v => decide (chosen l v = some x))
      = l.countP (fun y => decide (y = x)) * (l.length - 1).factorial := by
  induction l using List.reverseRecOn with
  | nil => simp [drawVectors, chosen, sample]
  | append_singleton l y ih =>
    have hlen : (l ++ [y]).length = l.length + 1 := by simp
    rw [hlen]
    simp only [drawVectors]
    rw [countP_flatMap_sum, List.range_succ_eq_map, List.map_cons, List.sum_cons, List.map_map]
    have h0 : ((drawVectors l.length).map (fun v => v ++ [0])).countP
          (fun v => decide (chosen (l ++ [y]) v = some x))
        = if y = x then l.length.factorial else 0 := by
      rw [List.countP_map]
      by_cases hy : y = x
      · subst hy
        rw [if_pos rfl, ← drawVectors_length, List.countP_eq_length]
        intro v hv
        have e := chosen_snoc l y v 0 (drawVectors_length_of_mem _ v hv) (by omega)
        rw [if_pos rfl] at e
        simp [e]
      · rw [if_neg hy, List.countP_eq_zero]
        intro v hv
        have e := chosen_snoc l y v 0 (drawVectors_length_of_mem _ v hv) (by omega)
        rw [if_pos rfl] at e
        simp [e, hy]
    have hs : ∀ d ∈ List.range l.length,
        ((fun a => ((drawVectors l.length).map (fun v => v ++ [a])).countP
            (fun v => decide (chosen (l ++ [y]) v = some x))) ∘ Nat.succ) d
          = l.countP (fun y => decide (y = x)) * (l.length - 1).factorial := by
      intro d hd
      have hd2 : d < l.length := List.mem_range.1 hd
      simp only [Function.comp]
      rw [List.countP_map, ← ih]
      apply List.countP_congr
      intro v hv
      simp [chosen_snoc l y v (d + 1) (drawVectors_length_of_mem _ v hv) (by omega)]
    rw [h0, sum_map_const_of _ _ _ hs, List.length_range, List.countP_append]
    have hf : l.length * (l.countP (fun y => decide (y = x)) * (l.length - 1).factorial)
        = l.countP (fun y => decide (y = x)) * l.length.factorial := by
      cases hl : l.length with
      | zero =>
        have : l = [] := List.length_eq_zero.1 hl
        subst this
        simp
      | succ m =>
        simp only [Nat.add_sub_cancel, Nat.factorial_succ]
        ring
    rw [hf, Nat.add_sub_cancel]
    by_cases hy : y = x
    · simp [hy, List.countP_cons]; ring
    · simp [hy, List.countP_cons]

theorem countP_eq_one_of_nodup {α : Type} [DecidableEq α] (l : List α) (x : α)
    (hnd : l.Nodup) (hm : x ∈ l) : l.countP (fun y => decide (y = x)) = 1 := by
  induction l with
  | nil => simp at hm
  | cons a rest ih =>
    rw [List.nodup_cons] at hnd
    rw [List.countP_cons]
    by_cases ha : a = x
    · subst ha
      have h0 : rest.countP (fun y => decide (y = a)) = 0 := by
        rw [List.countP_eq_zero]
        intro b hb
        simp only [decide_eq_true_eq]
        intro hc
        exact hnd.1 (hc ▸ hb)
      simp [h0]
    · rcases List.mem_cons.1 hm with h | h
      · exact absurd h.symm ha
      · simp [ha, ih hnd.2 h]

theorem count_eq_countP_decide (l : List Token) (t : Token) :
    l.count t = l.countP (fun y => decide (y = t)) := by
  unfold List.count
  apply List.countP_congr
  intro y _
  simp

theorem drawVectors_mem (n : Nat) (v : List Nat) :
    v ∈ drawVectors n ↔ v.length = n ∧ ∀ j, j < n → v.getD j 0 < j + 1 := by
  induction n generalizing v with
  | zero =>
    simp only [drawVectors, List.mem_singleton]
    constructor
    · rintro rfl
      exact ⟨rfl, fun j hj => absurd hj (Nat.not_lt_zero j)⟩
    · rintro ⟨h, _⟩
      exact List.length_eq_zero.1 h
  | succ n ih =>
    simp only [drawVectors, List.mem_flatMap, List.mem_map, List.mem_range]
    constructor
    · rintro ⟨d, hd, v0, hv0, rfl⟩
      obtain ⟨h1, h2⟩ := (ih v0).1 hv0
      refine ⟨by simp [h1], ?_⟩
      intro j hj
      by_cases hjn : j < n
      · have := h2 j hjn
        rw [List.getD_eq_getElem?_getD, List.getElem?_append_left (by omega)]
        rw [List.getD_eq_getElem?_getD] at this
        exact this
      · have hjn2 : j = n := by omega
        subst hjn2
        rw [List.getD_eq_getElem?_getD, List.getElem?_append_right (by omega)]
        simp [h1]
        exact hd
    · rintro ⟨h1, h2⟩
      cases v using List.reverseRecOn with
      | nil => simp at h1
      | append_singleton v0 d =>
        have hl : v0.length = n := by simpa using h1
        refine ⟨d, ?_, v0, (ih v0).2 ⟨hl, ?_⟩, rfl⟩
        · have := h2 n (Nat.lt_succ_self n)
          rw [List.getD_eq_getElem?_getD, List.getElem?_append_right (by omega)] at this
          simpa [hl] using this
        · intro j hj
          have := h2 j (by omega)
          rw [List.getD_eq_getElem?_getD, List.getElem?_append_left (by omega)] at this
          rw [List.getD_eq_getElem?_getD]
          exact this

theorem drawVectors_nodup (n : Nat) : (drawVectors n).Nodup := by
  induction n with
  | zero => simp [drawVectors]
  | succ n ih =>
    simp only [drawVectors]
    rw [List.nodup_flatMap]
    constructor
    · intro d _
      exact ih.map (List.append_left_injective [d])
    · refine (List.nodup_range (n + 1)).imp ?_
      intro a b hab
      simp only [Function.onFun]
      intro v h1 h2
      obtain ⟨v1, _, e1⟩ := List.mem_map.1 h1
      obtain ⟨v2, _, e2⟩ := List.mem_map.1 h2
      have e : v1 ++ [a] = v2 ++ [b] := e1.trans e2.symm
      have := List.append_inj_right' e rfl
      exact hab (List.cons.inj this).1

theorem sample_map {α β : Type} (f : α → β) (rnd : Nat → Nat) (l : List α) (m k : Nat)
    (w : Option α) :
    (sample rnd (l.map f) m k (w.map f)).1 = (sample rnd l m k w).1.map f := by
  induction l generalizing m k w with
  | nil => rfl
  | cons y rest ih =>
    simp only [List.map_cons, sample]
    rw [← ih]
    by_cases hc : rnd k % (m + 1) = 0
    · simp [hc]
    · simp [hc]

theorem sample_mod_congr {α : Type} (rnd rnd1 : Nat → Nat) (l : List α) (m k k1 : Nat)
    (w : Option α)
    (h : ∀ j, j < l.length → rnd (k + j) % (m + j + 1) = rnd1 (k1 + j) % (m + j + 1)) :
    (sample rnd l m k w).1 = (sample rnd1 l m k1 w).1 := by
  induction l generalizing m k k1 w with
  | nil => rfl
  | cons y rest ih =>
    simp only [sample]
    have h0 := h 0 (by simp)
    simp only [Nat.add_zero] at h0
    rw [h0]
    apply ih
    intro j hj
    have := h (j + 1) (by simpa using hj)
    have e1 : k + (j + 1) = k + 1 + j := by omega
    have e2 : k1 + (j + 1) = k1 + 1 + j := by omega
    have e3 : m + (j + 1) + 1 = m + 1 + j + 1 := by omega
    rw [e1, e2, e3] at this
    exact this

theorem sample_first {α : Type} (rnd : Nat → Nat) (l : List α) (k : Nat) (w w1 : Option α)
    (hl : l ≠ []) : (sample rnd l 0 k w).1 = (sample rnd l 0 k w1).1 := by
  cases l with
  | nil => exact absurd rfl hl
  | cons y rest => simp [sample, Nat.mod_one]

/-- C5: the reservoir walk of `generate` is uniform over the suffix chain,
duplicates counted.  For a chain `l` of `n` suffixes: there are `n!` draw
vectors `(d_1, ..., d_n)` with `0 ≤ d_j < j`, all different; the inner loop of
`generate`, whatever the draws `r_j` and the earlier value of `w`, chooses what
the vector `d_j = r_j % j` chooses; the word chosen is the word at the place
chosen; each place `i` of the chain is chosen by exactly `(n - 1)!` vectors;
and a word that stands `k` times in the chain is chosen by exactly
`k * (n - 1)!` vectors. -/
theorem C5_reservoir_uniform (l : List Token) :
    (drawVectors l.length).length = l.length.factorial
    ∧ (drawVectors l.length).Nodup
    ∧ (∀ v, v ∈ drawVectors l.length
        ↔ v.length = l.length ∧ ∀ j, j < l.length → v.getD j 0 < j + 1)
    ∧ (∀ (rnd : Nat → Nat) (k : Nat) (w : Option Token) (v : List Nat), l ≠ [] →
        (∀ j, j < l.length → rnd (k + j) % (j + 1) = v.getD j 0) →
        (sample rnd l 0 k w).1 = chosen l v)
    ∧ (∀ v, chosen l v = (chosen l.enum v).map Prod.snd)
    ∧ (∀ i t, l[i]? = some t →
        (drawVectors l.length).countP (fun v => decide (chosen l.enum v = some (i, t)))
          = (l.length - 1).factorial)
    ∧ (∀ t, (drawVectors l.length).countP (fun v => decide (chosen l v = some t))
          = l.count t * (l.length - 1).factorial) := by
  refine ⟨drawVectors_length _, drawVectors_nodup _, drawVectors_mem _, ?_, ?_, ?_,
    fun t => by rw [count_eq_countP_decide]; exact countP_chosen l t⟩
  · intro rnd k w v hl hv
    unfold chosen
    rw [sample_first rnd l k w none hl]
    apply sample_mod_congr
    intro j hj
    have h := hv j hj
    simp only [Nat.zero_add, drawsOf]
    rw [← h, Nat.mod_mod]
  · intro v
    unfold chosen
    have h := sample_map Prod.snd (drawsOf v) l.enum 0 0 none
    rw [List.enum_map_snd] at h
    exact h
  · intro i t hit
    have h := countP_chosen l.enum (i, t)
    rw [List.enum_length] at h
    rw [h]
    have hnd : l.enum.Nodup := by
      apply List.Nodup.of_map Prod.fst
      rw [List.enum_map_fst]
      exact List.nodup_range _
    have hm : (i, t) ∈ l.enum := List.mem_enum_iff_getElem?.2 hit
    rw [countP_eq_one_of_nodup _ _ hnd hm, Nat.one_mul]

/-! ## Runs on small inputs -/

theorem run_hello :
    (mainRun (fun _ => 0) [tok "Hello"] 5).1.out = [NONWORD, NONWORD, tok "Hello"]
    ∧ (mainRun (fun _ => 0) [tok "Hello"] 5).2 = Halt.sentinel := by
  decide

theorem run_the_cat_sat :
    (mainRun (fun _ => 0) [tok "The", tok "cat", tok "sat."] 5).1.out
      = [tok "The", tok "cat", tok "sat."] := by
  decide

theorem walk_three_entries :
    (drawVectors 3).length = 6
    ∧ (drawVectors 3).countP
        (fun v => decide (chosen [tok "a", tok "b", tok "a"] v = some (tok "a"))) = 4
    ∧ (drawVectors 3).countP
        (fun v => decide (chosen [tok "a", tok "b", tok "a"] v = some (tok "b"))) = 2 := by
  decide

/-! ## The window update -/

theorem advanceN_eq (N : Nat) (a : List Token) (t : Token) (hN : 1 ≤ N)
    (ha : a.length = N) : advanceN N a t = a.drop 1 ++ [t] := by
  unfold advanceN memmoveLeft
  have h1 : (a.drop 1).take (N - 1) = a.drop 1 :=
    List.take_of_length_le (by simp [ha])
  rw [h1]
  have hlen : (a.drop 1).length = N - 1 := by simp [ha]
  rw [List.set_append_right _ _ (by omega), hlen, Nat.sub_self]
  have h2 : (a.drop (N - 1)).length = 1 := by simp [ha]; omega
  match hd : a.drop (N - 1), h2 with
  | [y], _ => simp

/-- C11: the window update of `add`, and the same update of `generate`, turns
the window `(p_0, ..., p_{N-1})` into `(p_1, ..., p_{N-1}, t)`.  On an array
of any size `N ≥ 1` the `memmove` followed by `a[N-1] = t` drops slot 0, moves
every other slot one place to the left and puts `t` last; with `N = NPREF`
the window `(p_0, p_1)` becomes `(p_1, t)`, which is the window `add` returns
and the window `generate` holds after it printed `t`. -/
theorem C11_advance (T : Table) (p : Prefix) (t : Token) :
    (∀ (N : Nat) (a : List Token), 1 ≤ N → a.length = N →
        advanceN N a t = a.drop 1 ++ [t]
        ∧ (advanceN N a t).length = N
        ∧ (∀ i, i + 1 < N → (advanceN N a t)[i]? = a[i + 1]?)
        ∧ (advanceN N a t)[N - 1]? = some t)
    ∧ advance [p.1, p.2] t = [p.2, t]
    ∧ (add T p t).2 = (p.2, t)
    ∧ [(add T p t).2.1, (add T p t).2.2] = advance [p.1, p.2] t
    ∧ (∀ (rnd : Nat → Nat) (st : GenState), (genStep rnd st).2 = none →
        ∃ w, (genStep rnd st).1.out = st.out ++ [w]
          ∧ (genStep rnd st).1.pfx = (st.pfx.2, w)
          ∧ [(genStep rnd st).1.pfx.1, (genStep rnd st).1.pfx.2]
              = advance [st.pfx.1, st.pfx.2] w) := by
  have hadv : ∀ (q : Prefix) (u : Token), advance [q.1, q.2] u = [q.2, u] := by
    intro q u
    unfold advance
    rw [advanceN_eq NPREF [q.1, q.2] u (by decide) rfl]
    rfl
  refine ⟨?_, hadv p t, add_snd T p t, ?_, ?_⟩
  · intro N a hN ha
    have he := advanceN_eq N a t hN ha
    refine ⟨he, ?_, ?_, ?_⟩
    · rw [he]; simp [ha]; omega
    · intro i hi
      rw [he, List.getElem?_append_left (by simp [ha]; omega), List.getElem?_drop]
      congr 1
      omega
    · rw [he, List.getElem?_append_right (by simp [ha])]
      simp [ha]
  · rw [add_snd, hadv]
  · intro rnd st hnone
    rcases genStep_cases rnd st with ⟨w, _, _, h2, h3, _⟩ | ⟨h, h1, _⟩
    · refine ⟨w, h2, h3, ?_⟩
      rw [h3, hadv]
    · rw [h1] at hnone
      cases hnone

/-! ## The choice of the start window is a reservoir walk -/

theorem sample_snd {α : Type} (rnd : Nat → Nat) (l : List α) (m k : Nat) (w : Option α) :
    (sample rnd l m k w).2 = k + l.length := by
  induction l generalizing m k w with
  | nil => rfl
  | cons y rest ih =>
    simp only [sample, List.length_cons]
    rw [ih]
    omega

/-- The start window, the counter and the draws of `build` are those of the
walk of `sample` over the candidate windows. -/
theorem build_sample (rnd : Nat → Nat) (st : BuildState) (toks : List Token) :
    some (build rnd st toks).startPrefix
        = (sample rnd (candidatesFrom st.pfx.2 toks) st.nstartPref st.k
            (some st.startPrefix)).1
    ∧ (build rnd st toks).nstartPref
        = st.nstartPref + (candidatesFrom st.pfx.2 toks).length
    ∧ (build rnd st toks).k = st.k + (candidatesFrom st.pfx.2 toks).length := by
  induction toks generalizing st with
  | nil => exact ⟨rfl, rfl, rfl⟩
  | cons t rest ih =>
    have hb : build rnd st (t :: rest) = build rnd (buildStep rnd st t) rest := rfl
    obtain ⟨i1, i2, i3⟩ := ih (buildStep rnd st t)
    obtain ⟨f1, f2, f3⟩ := buildStep_fields rnd st t
    have fp : (buildStep rnd st t).pfx.2 = t := by rw [buildStep_pfx]
    rw [hb, i1, i2, i3, fp, f1, f2, f3]
    by_cases hu : startsUpper st.pfx.2
    · simp only [candidatesFrom, hu, if_true, true_and, List.singleton_append, sample,
        List.length_cons]
      refine ⟨?_, by omega, by omega⟩
      by_cases hd : rnd st.k % (st.nstartPref + 1) = 0
      · simp [hd]
      · simp [hd]
    · simp [candidatesFrom, hu]

theorem mainBuild_sample (rnd : Nat → Nat) (toks : List Token) :
    some (mainBuild rnd toks).startPrefix
        = (sample rnd (candidates toks) 0 0 (some (NONWORD, NONWORD))).1
    ∧ (mainBuild rnd toks).nstartPref = (candidates toks).length
    ∧ (mainBuild rnd toks).k = (candidates toks).length := by
  obtain ⟨h1, h2, h3⟩ := build_sample rnd mainInit toks
  refine ⟨h1, ?_, ?_⟩
  · rw [show (mainBuild rnd toks).nstartPref = (build rnd mainInit toks).nstartPref from rfl, h2]
    simp [mainInit, candidates]
  · rw [show (mainBuild rnd toks).k = (build rnd mainInit toks).k from rfl, h3]
    simp [mainInit, candidates]

theorem mainBuild_chosen (rnd : Nat → Nat) (toks : List Token) (v : List Nat)
    (hc : candidates toks ≠ [])
    (hv : ∀ j, j < (candidates toks).length → rnd j % (j + 1) = v.getD j 0) :
    some (mainBuild rnd toks).startPrefix = chosen (candidates toks) v := by
  rw [(mainBuild_sample rnd toks).1]
  unfold chosen
  rw [sample_first rnd _ 0 _ none hc]
  apply sample_mod_congr
  intro j hj
  have h := hv j hj
  simp only [Nat.zero_add, drawsOf]
  rw [← h, Nat.mod_mod]

/-- C12: the choice of the start window in `build` is uniform over the
candidate occurrences.  For every token list, with `K` the number of
candidates `build` counts (one draw each): the start window that `build`
leaves under draws `r_j` is the candidate that the draw vector `d_j = r_j % j`
chooses; there are `K!` draw vectors `(d_1, ..., d_K)` with `0 ≤ d_j < j`;
each candidate place `c` is chosen by exactly `(K - 1)!` of them; and a window
value recorded at `m` places is left as the start window by exactly
`m * (K - 1)!` of them. -/
theorem C12_start_choice_uniform (toks : List Token) :
    (∀ rnd : Nat → Nat, (mainBuild rnd toks).nstartPref = (candidates toks).length
        ∧ (mainBuild rnd toks).k = (candidates toks).length)
    ∧ (drawVectors (candidates toks).length).length = (candidates toks).length.factorial
    ∧ (∀ (rnd : Nat → Nat) (v : List Nat), candidates toks ≠ [] →
        (∀ j, j < (candidates toks).length → rnd j % (j + 1) = v.getD j 0) →
        some (mainBuild rnd toks).startPrefix = chosen (candidates toks) v)
    ∧ (∀ v, chosen (candidates toks) v = (chosen (candidates toks).enum v).map Prod.snd)
    ∧ (∀ c P, (candidates toks)[c]? = some P →
        (drawVectors (candidates toks).length).countP
            (fun v => decide (chosen (candidates toks).enum v = some (c, P)))
          = ((candidates toks).length - 1).factorial)
    ∧ (∀ P, candidates toks ≠ [] →
        (drawVectors (candidates toks).length).countP
            (fun v => decide ((mainBuild (drawsOf v) toks).startPrefix = P))
          = (candidates toks).countP (fun Q => decide (Q = P))
              * ((candidates toks).length - 1).factorial) := by
  refine ⟨fun rnd => (mainBuild_sample rnd toks).2, drawVectors_length _,
    fun rnd v hc hv => mainBuild_chosen rnd toks v hc hv, ?_, ?_, ?_⟩
  · intro v
    unfold chosen
    have h := sample_map Prod.snd (drawsOf v) (candidates toks).enum 0 0 none
    rw [List.enum_map_snd] at h
    exact h
  · intro c P hcP
    have h := countP_chosen (candidates toks).enum (c, P)
    rw [List.enum_length] at h
    rw [h]
    have hnd : (candidates toks).enum.Nodup := by
      apply List.Nodup.of_map Prod.fst
      rw [List.enum_map_fst]
      exact List.nodup_range _
    have hm : (c, P) ∈ (candidates toks).enum := List.mem_enum_iff_getElem?.2 hcP
    rw [countP_eq_one_of_nodup _ _ hnd hm, Nat.one_mul]
  · intro P hc
    rw [← countP_chosen (candidates toks) P]
    apply List.countP_congr
    intro v hv
    obtain ⟨_, hlt⟩ := (drawVectors_mem _ v).1 hv
    have he := mainBuild_chosen (drawsOf v) toks v hc (by
      intro j hj
      simp only [drawsOf]
      exact Nat.mod_eq_of_lt (hlt j hj))
    simp only [decide_eq_true_eq]
    rw [← he]
    simp

theorem candidates_the_cat_the_dog :
    candidates [tok "The", tok "cat", tok "sat.", tok "The", tok "dog", tok "ran."]
      = [(tok "The", tok "cat"), (tok "The", tok "dog")] := by
  decide

/-! ## The walk under scripted draws -/

/-- The walk ends on the entry at place `i` when draw `i` is divisible by its
step number and no later draw is. -/
theorem sample_at {α : Type} (rnd : Nat → Nat) (l : List α) (m k : Nat) (w : Option α)
    (i : Nat) (hi : i < l.length) (h0 : rnd (k + i) % (m + i + 1) = 0)
    (hlater : ∀ j, i < j → j < l.length → rnd (k + j) % (m + j + 1) ≠ 0) :
    (sample rnd l m k w).1 = l[i]? := by
  induction l using List.reverseRecOn with
  | nil => simp at hi
  | append_singleton l x ih =>
    rw [sample_snoc]
    have hlen : (l ++ [x]).length = l.length + 1 := by simp
    rw [hlen] at hi
    by_cases hil : i = l.length
    · subst hil
      rw [if_pos h0, List.getElem?_append_right (Nat.le_refl _)]
      simp
    · have hlt : i < l.length := by omega
      have hne := hlater l.length hlt (by rw [hlen]; omega)
      rw [if_neg hne, List.getElem?_append_left hlt]
      apply ih hlt
      intro j h1 h2
      exact hlater j h1 (by rw [hlen]; omega)

/-- Some place is the last one whose draw is divisible by its step number
(place 0 always qualifies), and the walk from `nmatch = 0` ends there. -/
theorem sample_largest {α : Type} (rnd : Nat → Nat) (l : List α) (k : Nat) (w : Option α)
    (hl : l ≠ []) :
    ∃ i, i < l.length ∧ rnd (k + i) % (i + 1) = 0
      ∧ (∀ j, i < j → j < l.length → rnd (k + j) % (j + 1) ≠ 0)
      ∧ (sample rnd l 0 k w).1 = l[i]? := by
  have hex : ∃ i, i < l.length ∧ rnd (k + i) % (i + 1) = 0
      ∧ (∀ j, i < j → j < l.length → rnd (k + j) % (j + 1) ≠ 0) := by
    induction l using List.reverseRecOn with
    | nil => exact absurd rfl hl
    | append_singleton l x ih =>
      have hlen : (l ++ [x]).length = l.length + 1 := by simp
      by_cases hc : rnd (k + l.length) % (l.length + 1) = 0
      · refine ⟨l.length, by rw [hlen]; omega, hc, ?_⟩
        intro j h1 h2
        rw [hlen] at h2
        omega
      · have hne : l ≠ [] := by
          intro he
          subst he
          simp [Nat.mod_one] at hc
        obtain ⟨i, h1, h2, h3⟩ := ih hne
        refine ⟨i, by rw [hlen]; omega, h2, ?_⟩
        intro j hj1 hj2
        rw [hlen] at hj2
        by_cases hjl : j = l.length
        · subst hjl; exact hc
        · exact h3 j hj1 (by omega)
  obtain ⟨i, h1, h2, h3⟩ := hex
  refine ⟨i, h1, h2, h3, ?_⟩
  apply sample_at rnd l 0 k w i h1
  · rw [Nat.zero_add]; exact h2
  · intro j hj1 hj2
    rw [Nat.zero_add]
    exact h3 j hj1 hj2

/-- C13: the trace of the reservoir walk of `generate` under scripted draws.
For a chain `l` of `n ≥ 1` suffixes, walked from its head (the suffix added
last), and draws `r_1, ..., r_n` (here `r_{j+1} = rnd (k + j)`): the word chosen
is the one at the largest place `j` with `r_j mod j = 0`; the place `i` is
chosen whenever `r_i mod i = 0` (so when `r_i = 0`) and no later `r_j` is
divisible by `j`; with the draws `0, 1, 2, ..., n-1` the first suffix walked is
chosen, for every `n` and so for `n = 1, 2, 3, 5`; and the head of the chain of
a state is the suffix that the last `add` on its key put there. -/
theorem C13_scripted_walk (rnd : Nat → Nat) (l : List Token) (k : Nat) (w : Option Token)
    (hl : l ≠ []) :
    (∃ i, i < l.length ∧ rnd (k + i) % (i + 1) = 0
        ∧ (∀ j, i < j → j < l.length → rnd (k + j) % (j + 1) ≠ 0)
        ∧ (sample rnd l 0 k w).1 = l[i]?)
    ∧ (∀ i, i < l.length → rnd (k + i) % (i + 1) = 0 →
        (∀ j, i < j → j < l.length → rnd (k + j) % (j + 1) ≠ 0) →
        (sample rnd l 0 k w).1 = l[i]?)
    ∧ ((∀ j, j < l.length → rnd (k + j) = j) → (sample rnd l 0 k w).1 = l.head?)
    ∧ (chosen [tok "a"] [0] = some (tok "a")
        ∧ chosen [tok "a", tok "b"] [0, 1] = some (tok "a")
        ∧ chosen [tok "a", tok "b", tok "c"] [0, 1, 2] = some (tok "a")
        ∧ chosen [tok "a", tok "b", tok "c", tok "d", tok "e"] [0, 1, 2, 3, 4]
            = some (tok "a"))
    ∧ (∀ (T : Table) (P : Prefix) (t : Token),
        stateOf (add T P t).1 P
          = some ⟨P, t :: ((stateOf T P).map State.suf).getD []⟩) := by
  refine ⟨sample_largest rnd l k w hl, ?_, ?_, by decide, ?_⟩
  · intro i hi h0 hlater
    apply sample_at rnd l 0 k w i hi
    · rw [Nat.zero_add]; exact h0
    · intro j hj1 hj2
      rw [Nat.zero_add]
      exact hlater j hj1 hj2
  · intro hr
    have hpos : 0 < l.length := List.length_pos.2 hl
    have h := sample_at rnd l 0 k w 0 hpos (by simp [Nat.mod_one]) (by
      intro j hj1 hj2
      rw [Nat.zero_add, hr j hj2, Nat.mod_eq_of_lt (Nat.lt_succ_self j)]
      omega)
    rw [h]
    cases l with
    | nil => exact absurd rfl hl
    | cons y rest => simp
  · intro T P t
    rw [stateOf_add, if_pos rfl]

/-- C13 at the chain "c", "b", "a" with the draws 0, 1, 2. -/
theorem C13_scripted_walk_witness :
    [tok "c", tok "b", tok "a"] ≠ []
    ∧ ((∃ i, i < [tok "c", tok "b", tok "a"].length ∧ (fun j => j) (0 + i) % (i + 1) = 0
          ∧ (∀ j, i < j → j < [tok "c", tok "b", tok "a"].length
              → (fun j => j) (0 + j) % (j + 1) ≠ 0)
          ∧ (sample (fun j => j) [tok "c", tok "b", tok "a"] 0 0 none).1
              = [tok "c", tok "b", tok "a"][i]?)
      ∧ (∀ i, i < [tok "c", tok "b", tok "a"].length → (fun j => j) (0 + i) % (i + 1) = 0 →
          (∀ j, i < j → j < [tok "c", tok "b", tok "a"].length
              → (fun j => j) (0 + j) % (j + 1) ≠ 0) →
          (sample (fun j => j) [tok "c", tok "b", tok "a"] 0 0 none).1
              = [tok "c", tok "b", tok "a"][i]?)
      ∧ ((∀ j, j < [tok "c", tok "b", tok "a"].length → (fun j => j) (0 + j) = j) →
          (sample (fun j => j) [tok "c", tok "b", tok "a"] 0 0 none).1
              = [tok "c", tok "b", tok "a"].head?)
      ∧ (chosen [tok "a"] [0] = some (tok "a")
          ∧ chosen [tok "a", tok "b"] [0, 1] = some (tok "a")
          ∧ chosen [tok "a", tok "b", tok "c"] [0, 1, 2] = some (tok "a")
          ∧ chosen [tok "a", tok "b", tok "c", tok "d", tok "e"] [0, 1, 2, 3, 4]
              = some (tok "a"))
      ∧ (∀ (T : Table) (P : Prefix) (t : Token),
          stateOf (add T P t).1 P
            = some ⟨P, t :: ((stateOf T P).map State.suf).getD []⟩)) :=
  ⟨by decide, C13_scripted_walk (fun j => j) [tok "c", tok "b", tok "a"] 0 none (by decide)⟩

/-! ## The empty input and the one-word input -/

theorem sample_single {α : Type} (rnd : Nat → Nat) (x : α) (k : Nat) (w : Option α) :
    sample rnd [x] 0 k w = (some x, k + 1) := by
  simp [sample, Nat.mod_one]

theorem stateOf_built_single (rnd0 : Nat → Nat) (toks : List Token) (P : Prefix) (x : Token)
    (hobs : observed (padded toks) P = [x]) :
    stateOf (mainBuild rnd0 toks).tab P = some ⟨P, [x]⟩ := by
  rw [stateOf_mainBuild, hobs]
  simp

/-- A turn of the loop at a window that the text shows once, before `NONWORD`. -/
theorem genStep_single_sentinel (rnd rnd0 : Nat → Nat) (toks : List Token) (st : GenState)
    (hT : st.tab = (mainBuild rnd0 toks).tab)
    (hobs : observed (padded toks) st.pfx = [NONWORD]) :
    genStep rnd st = ({ st with w := some NONWORD, k := st.k + 1 }, some Halt.sentinel) := by
  have hs : stateOf st.tab st.pfx = some ⟨st.pfx, [NONWORD]⟩ := by
    rw [hT]
    exact stateOf_built_single rnd0 toks _ _ hobs
  have h := genStep_some_sentinel rnd st _ hs (by rw [sample_single])
  rw [h, sample_single]

/-- A turn of the loop at a window that the text shows once, before the word `x`. -/
theorem genStep_single_word (rnd rnd0 : Nat → Nat) (toks : List Token) (st : GenState)
    (x : Token) (hT : st.tab = (mainBuild rnd0 toks).tab)
    (hobs : observed (padded toks) st.pfx = [x]) (hx : x ≠ NONWORD) :
    genStep rnd st
      = ({ tab := st.tab, pfx := (st.pfx.2, x), w := some x, k := st.k + 1,
           out := st.out ++ [x] }, none) := by
  have hs : stateOf st.tab st.pfx = some ⟨st.pfx, [x]⟩ := by
    rw [hT]
    exact stateOf_built_single rnd0 toks _ _ hobs
  have h := genStep_some_word rnd st _ x hs (by rw [sample_single]) hx
  rw [h, sample_single]

theorem genStep_mk_sentinel (rnd rnd0 : Nat → Nat) (toks : List Token) (p : Prefix)
    (w : Option Token) (k : Nat) (out : List Token)
    (hobs : observed (padded toks) p = [NONWORD]) :
    genStep rnd { tab := (mainBuild rnd0 toks).tab, pfx := p, w := w, k := k, out := out }
      = ({ tab := (mainBuild rnd0 toks).tab, pfx := p, w := some NONWORD, k := k + 1,
           out := out }, some Halt.sentinel) :=
  genStep_single_sentinel rnd rnd0 toks _ rfl hobs

theorem genStep_mk_word (rnd rnd0 : Nat → Nat) (toks : List Token) (p : Prefix)
    (w : Option Token) (k : Nat) (out : List Token) (x : Token)
    (hobs : observed (padded toks) p = [x]) (hx : x ≠ NONWORD) :
    genStep rnd { tab := (mainBuild rnd0 toks).tab, pfx := p, w := w, k := k, out := out }
      = ({ tab := (mainBuild rnd0 toks).tab, pfx := (p.2, x), w := some x, k := k + 1,
           out := out ++ [x] }, none) :=
  genStep_single_word rnd rnd0 toks _ x rfl hobs hx

theorem genLoop_succ_halt (rnd : Nat → Nat) (n : Nat) (st st1 : GenState) (h : Halt)
    (hg : genStep rnd st = (st1, some h)) : genLoop rnd (n + 1) st = (st1, h) := by
  simp [genLoop, hg]

theorem genLoop_succ_go (rnd : Nat → Nat) (n : Nat) (st st1 : GenState)
    (hg : genStep rnd st = (st1, none)) : genLoop rnd (n + 1) st = genLoop rnd n st1 := by
  simp [genLoop, hg]

/-- C14: on the empty input, for every requested count and every draw
sequence, the start window is all `NONWORD` and `generate` prints no word after
it; whenever the loop runs at all (`nwords ≥ 1`) the first word sampled is
`NONWORD` and the loop is left there, and with `nwords ≤ 0` nothing is
sampled. -/
theorem C14_empty_input (rnd : Nat → Nat) (nwords : Int) :
    (mainBuild rnd []).startPrefix = (NONWORD, NONWORD)
    ∧ sampled (mainRun rnd [] nwords) = []
    ∧ (mainRun rnd [] nwords).1.out = [NONWORD, NONWORD]
    ∧ (0 < nwords → (mainRun rnd [] nwords).2 = Halt.sentinel
        ∧ (mainRun rnd [] nwords).1.w = some NONWORD)
    ∧ (nwords ≤ 0 → (mainRun rnd [] nwords).2 = Halt.completed
        ∧ (mainRun rnd [] nwords).1.w = none) := by
  have hsp : (mainBuild rnd []).startPrefix = (NONWORD, NONWORD) := rfl
  have hstep := genStep_single_sentinel rnd rnd []
    (genInit (mainBuild rnd []).tab (mainBuild rnd []).startPrefix (mainBuild rnd []).k)
    rfl (show observed (padded []) (NONWORD, NONWORD) = [NONWORD] by decide)
  cases hn : nwords.toNat with
  | zero =>
    have hle : nwords ≤ 0 := Int.toNat_eq_zero.1 hn
    have hr : mainRun rnd [] nwords
        = (genInit (mainBuild rnd []).tab (mainBuild rnd []).startPrefix
            (mainBuild rnd []).k, Halt.completed) := by
      rw [mainRun_eq, hn]
      rfl
    rw [hr]
    refine ⟨hsp, rfl, rfl, ?_, fun _ => ⟨rfl, rfl⟩⟩
    intro hpos
    omega
  | succ n =>
    have hpos : 0 < nwords := by
      by_contra hc
      have := Int.toNat_eq_zero.2 (Int.not_lt.1 hc)
      omega
    have hr := genLoop_succ_halt rnd n _ _ _ hstep
    rw [← hn, ← mainRun_eq] at hr
    rw [hr]
    refine ⟨hsp, rfl, rfl, fun _ => ⟨rfl, rfl⟩, ?_⟩
    intro hle
    omega

theorem genInit_tab (T : Table) (p : Prefix) (k : Nat) : (genInit T p k).tab = T := rfl

theorem seen_hello (P : Prefix) :
    Seen (padded [tok "Hello"]) P ↔ P = (NONWORD, NONWORD) ∨ P = (NONWORD, tok "Hello") := by
  constructor
  · rintro ⟨i, h1, h2, h3⟩
    rw [padded_length] at h3
    simp only [List.length_singleton] at h3
    have hi : i = 0 ∨ i = 1 := by omega
    rcases hi with rfl | rfl
    · left
      have e1 : (padded [tok "Hello"])[0]? = some NONWORD := rfl
      have e2 : (padded [tok "Hello"])[0 + 1]? = some NONWORD := rfl
      rw [e1] at h1
      rw [e2] at h2
      exact Prod.ext (Option.some.inj h1).symm (Option.some.inj h2).symm
    · right
      have e1 : (padded [tok "Hello"])[1]? = some NONWORD := rfl
      have e2 : (padded [tok "Hello"])[1 + 1]? = some (tok "Hello") := rfl
      rw [e1] at h1
      rw [e2] at h2
      exact Prod.ext (Option.some.inj h1).symm (Option.some.inj h2).symm
  · rintro (rfl | rfl)
    · exact ⟨0, by decide, by decide, by decide⟩
    · exact ⟨1, by decide, by decide, by decide⟩

/-- C15, the claim as stated fails: with the requested count 0 nothing is
printed after the start window, not the one word "Hello". -/
theorem C15_counterexample :
    sampled (mainRun (fun _ => 0) [tok "Hello"] 0) = []
    ∧ (mainRun (fun _ => 0) [tok "Hello"] 0).1.out = [NONWORD, NONWORD] := by
  decide

/-- C15, amended: for the one-word input "Hello", `build` and the closing `add`
leave exactly the state `(NONWORD, NONWORD)` with the one suffix "Hello" and
the state `(NONWORD, "Hello")` with the one suffix `NONWORD`; the start window
is all `NONWORD`; and for every requested count of at least 1 and every draw
sequence `generate` prints exactly one word after the start window, "Hello",
and stops: at the end of the loop when the count is 1, on the sampled `NONWORD`
when it is larger. -/
theorem C15_single_word (rnd : Nat → Nat) (nwords : Int) (h : 1 ≤ nwords) :
    stateOf (mainBuild rnd [tok "Hello"]).tab (NONWORD, NONWORD)
        = some ⟨(NONWORD, NONWORD), [tok "Hello"]⟩
    ∧ stateOf (mainBuild rnd [tok "Hello"]).tab (NONWORD, tok "Hello")
        = some ⟨(NONWORD, tok "Hello"), [NONWORD]⟩
    ∧ (∀ P, HasState (mainBuild rnd [tok "Hello"]).tab P
        ↔ P = (NONWORD, NONWORD) ∨ P = (NONWORD, tok "Hello"))
    ∧ (mainBuild rnd [tok "Hello"]).startPrefix = (NONWORD, NONWORD)
    ∧ sampled (mainRun rnd [tok "Hello"] nwords) = [tok "Hello"]
    ∧ (mainRun rnd [tok "Hello"] nwords).1.out = [NONWORD, NONWORD, tok "Hello"]
    ∧ (nwords = 1 → (mainRun rnd [tok "Hello"] nwords).2 = Halt.completed)
    ∧ (2 ≤ nwords → (mainRun rnd [tok "Hello"] nwords).2 = Halt.sentinel
        ∧ (mainRun rnd [tok "Hello"] nwords).1.w = some NONWORD) := by
  have ho1 : observed (padded [tok "Hello"]) (NONWORD, NONWORD) = [tok "Hello"] := by decide
  have ho2 : observed (padded [tok "Hello"]) (NONWORD, tok "Hello") = [NONWORD] := by decide
  have hsp : (mainBuild rnd [tok "Hello"]).startPrefix = (NONWORD, NONWORD) := rfl
  have hne : tok "Hello" ≠ NONWORD := by decide
  have hwf : WF (mainBuild rnd [tok "Hello"]).tab := (mainBuild_reachable rnd _).wf
  have hstep1 := genStep_mk_word rnd rnd [tok "Hello"] (NONWORD, NONWORD) none
    (mainBuild rnd [tok "Hello"]).k [NONWORD, NONWORD] (tok "Hello") ho1 hne
  have hstep2 := genStep_mk_sentinel rnd rnd [tok "Hello"] (NONWORD, tok "Hello")
    (some (tok "Hello")) ((mainBuild rnd [tok "Hello"]).k + 1)
    ([NONWORD, NONWORD] ++ [tok "Hello"]) ho2
  refine ⟨stateOf_built_single rnd _ _ _ ho1, stateOf_built_single rnd _ _ _ ho2, ?_, hsp, ?_⟩
  · intro P
    rw [hwf.hasState_iff, stateOf_mainBuild, ← seen_hello, seen_iff]
    by_cases ho : observed (padded [tok "Hello"]) P = [] <;> simp [ho]
  · cases hn : nwords.toNat with
    | zero =>
      have := Int.toNat_eq_zero.1 hn
      omega
    | succ n =>
      cases n with
      | zero =>
        have h1 : nwords = 1 := by omega
        have hr : mainRun rnd [tok "Hello"] nwords
            = ({ tab := (mainBuild rnd [tok "Hello"]).tab, pfx := (NONWORD, tok "Hello"),
                 w := some (tok "Hello"), k := (mainBuild rnd [tok "Hello"]).k + 1,
                 out := [NONWORD, NONWORD, tok "Hello"] }, Halt.completed) := by
          rw [mainRun_eq, hsp, hn]
          exact (genLoop_succ_go rnd 0 _ _ hstep1).trans rfl
        rw [hr]
        refine ⟨rfl, rfl, fun _ => rfl, ?_⟩
        intro h2
        omega
      | succ m =>
        have h2 : 2 ≤ nwords := by omega
        have hr : mainRun rnd [tok "Hello"] nwords
            = ({ tab := (mainBuild rnd [tok "Hello"]).tab, pfx := (NONWORD, tok "Hello"),
                 w := some NONWORD, k := (mainBuild rnd [tok "Hello"]).k + 1 + 1,
                 out := [NONWORD, NONWORD, tok "Hello"] }, Halt.sentinel) := by
          rw [mainRun_eq, hsp, hn]
          exact (genLoop_succ_go rnd (m + 1) _ _ hstep1).trans
            (genLoop_succ_halt rnd m _ _ _ hstep2)
        rw [hr]
        refine ⟨rfl, rfl, ?_, fun _ => ⟨rfl, rfl⟩⟩
        intro h1
        omega

/-- C15, amended, with the requested count 5. -/
theorem C15_single_word_witness :
    (1 : Int) ≤ 5
    ∧ (stateOf (mainBuild (fun _ => 0) [tok "Hello"]).tab (NONWORD, NONWORD)
          = some ⟨(NONWORD, NONWORD), [tok "Hello"]⟩
      ∧ stateOf (mainBuild (fun _ => 0) [tok "Hello"]).tab (NONWORD, tok "Hello")
          = some ⟨(NONWORD, tok "Hello"), [NONWORD]⟩
      ∧ (∀ P, HasState (mainBuild (fun _ => 0) [tok "Hello"]).tab P
          ↔ P = (NONWORD, NONWORD) ∨ P = (NONWORD, tok "Hello"))
      ∧ (mainBuild (fun _ => 0) [tok "Hello"]).startPrefix = (NONWORD, NONWORD)
      ∧ sampled (mainRun (fun _ => 0) [tok "Hello"] 5) = [tok "Hello"]
      ∧ (mainRun (fun _ => 0) [tok "Hello"] 5).1.out = [NONWORD, NONWORD, tok "Hello"]
      ∧ ((5 : Int) = 1 → (mainRun (fun _ => 0) [tok "Hello"] 5).2 = Halt.completed)
      ∧ ((2 : Int) ≤ 5 → (mainRun (fun _ => 0) [tok "Hello"] 5).2 = Halt.sentinel
          ∧ (mainRun (fun _ => 0) [tok "Hello"] 5).1.w = some NONWORD)) :=
  ⟨by decide, C15_single_word (fun _ => 0) 5 (by decide)⟩

/-! ## The table invariant -/

theorem WF_lookup (T : Table) (p : Prefix) (hT : WF T) : WF (lookup T p true).2 := by
  cases hs : scan p (T (hash p)) 0 with
  | some i =>
    rw [lookup_some T p true i hs]
    exact hT
  | none =>
    rw [lookup_none_true T p hs]
    constructor
    · intro h st hst
      by_cases hj : h = hash p
      · simp only [hj, if_true, List.mem_cons] at hst
        rcases hst with rfl | hst
        · exact hj.symm
        · rw [hj]
          exact hT.bucket _ _ hst
      · simp only [hj, if_false] at hst
        exact hT.bucket _ _ hst
    · intro h
      by_cases hj : h = hash p
      · simp only [hj, if_true, List.map_cons, List.nodup_cons]
        refine ⟨?_, hT.nodup _⟩
        intro hm
        obtain ⟨st0, h0, h1⟩ := List.mem_map.1 hm
        exact (scan_none_iff p _).1 hs st0 h0 h1
      · simp only [hj, if_false]
        exact hT.nodup _

theorem grown_wellFormed {T : Table} (h : Grown T) : WF T := by
  induction h with
  | empty => exact WF_empty
  | add T p t _ ih => exact WF_add T p t ih
  | lookup T p _ ih => exact WF_lookup T p ih

/-- C16: every table that `add` and `lookup(., 1)` produce from the empty
table keeps the invariant: each state sits in the chain of the bucket
`hash` of its key, a bucket below `NHASH`, and no two states anywhere in the
table, at different places, have keys that are equal word by word. -/
theorem C16_table_invariant (T : Table) (hT : Grown T) :
    (∀ h st, st ∈ T h → hash st.pref = h ∧ h < NHASH)
    ∧ (∀ (h1 i1 h2 i2 : Nat) (s1 s2 : State), (T h1)[i1]? = some s1 → (T h2)[i2]? = some s2 →
        s1.pref = s2.pref → h1 = h2 ∧ i1 = i2) := by
  have hwf := grown_wellFormed hT
  constructor
  · intro h st hst
    have hb := hwf.bucket h st hst
    exact ⟨hb, by rw [← hb]; exact hash_lt _⟩
  · intro h1 i1 h2 i2 s1 s2 e1 e2 hp
    have b1 := hwf.bucket h1 s1 (List.getElem?_mem e1)
    have b2 := hwf.bucket h2 s2 (List.getElem?_mem e2)
    have hh : h1 = h2 := by rw [← b1, ← b2, hp]
    subst hh
    refine ⟨rfl, ?_⟩
    have hlt : i1 < ((T h1).map State.pref).length := by
      rw [List.length_map]
      by_contra hc
      rw [List.getElem?_eq_none (Nat.le_of_not_lt hc)] at e1
      cases e1
    apply List.getElem?_inj hlt (hwf.nodup h1)
    rw [List.getElem?_map, List.getElem?_map, e1, e2]
    simp [hp]

/-- C16 at the table left by `lookup(("a", "b"), 1)` and then
`add((NONWORD, NONWORD), "Hello")`. -/
theorem C16_table_invariant_witness :
    Grown (add (lookup emptyTable (tok "a", tok "b") true).2 (NONWORD, NONWORD)
        (tok "Hello")).1
    ∧ ((∀ h st, st ∈ (add (lookup emptyTable (tok "a", tok "b") true).2 (NONWORD, NONWORD)
            (tok "Hello")).1 h → hash st.pref = h ∧ h < NHASH)
      ∧ (∀ (h1 i1 h2 i2 : Nat) (s1 s2 : State),
          ((add (lookup emptyTable (tok "a", tok "b") true).2 (NONWORD, NONWORD)
            (tok "Hello")).1 h1)[i1]? = some s1 →
          ((add (lookup emptyTable (tok "a", tok "b") true).2 (NONWORD, NONWORD)
            (tok "Hello")).1 h2)[i2]? = some s2 →
          s1.pref = s2.pref → h1 = h2 ∧ i1 = i2)) :=
  ⟨Grown.add _ _ _ (Grown.lookup _ _ Grown.empty),
    C16_table_invariant _ (Grown.add _ _ _ (Grown.lookup _ _ Grown.empty))⟩

/-! ## What add changes -/

theorem consSuf_eq_set (t : Token) (l : List State) (i : Nat) (s : State)
    (h : l[i]? = some s) : consSuf t l i = l.set i ⟨s.pref, t :: s.suf⟩ := by
  induction l generalizing i with
  | nil => simp at h
  | cons sp rest ih =>
    cases i with
    | zero =>
      simp only [List.getElem?_cons_zero, Option.some.injEq] at h
      subst h
      rfl
    | succ i =>
      simp only [List.getElem?_cons_succ] at h
      simp [consSuf, ih i h]

/-- C17: `add(p, t)` changes the model only at the state keyed by `p`.  Every
chain but the chain `hash(p)` is left as it is; when the key `p` has a state,
that chain is left as it is but for this one state, whose suffix chain gets `t`
put in front (its multiset gains one `t`); when it has none, a new state with
the one suffix `t` is put in front of the chain.  So the state of every other
key is what it was, nothing is removed, and the table holds one suffix entry
more.  This holds on every table, reachable or not. -/
theorem C17_add_frame (T : Table) (p : Prefix) (t : Token) :
    (∀ h, h ≠ hash p → (add T p t).1 h = T h)
    ∧ (∀ s, stateOf T p = some s →
        ∃ i, (T (hash p))[i]? = some s ∧ s.pref = p
          ∧ (add T p t).1 (hash p) = (T (hash p)).set i ⟨p, t :: s.suf⟩
          ∧ (↑(t :: s.suf) : Multiset Token) = t ::ₘ (↑s.suf : Multiset Token))
    ∧ (stateOf T p = none → (add T p t).1 (hash p) = ⟨p, [t]⟩ :: T (hash p))
    ∧ stateOf (add T p t).1 p = some ⟨p, t :: ((stateOf T p).map State.suf).getD []⟩
    ∧ (∀ q, q ≠ p → stateOf (add T p t).1 q = stateOf T q)
    ∧ totalSuffixes (add T p t).1 = totalSuffixes T + 1 := by
  refine ⟨?_, ?_, ?_, ?_, ?_, totalSuffixes_add T p t⟩
  · intro h hh
    rw [add_tab_apply, if_neg hh]
  · intro s hs
    cases hsc : scan p (T (hash p)) 0 with
    | none =>
      have hn := (scan_none_find p _).1 hsc
      unfold stateOf at hs
      rw [hn] at hs
      cases hs
    | some i =>
      obtain ⟨st, h1, h2, h3⟩ := scan_some_find p _ i hsc
      unfold stateOf at hs
      rw [h3] at hs
      cases hs
      refine ⟨i, h1, h2, ?_, rfl⟩
      rw [add_tab_apply, if_pos rfl, hsc]
      simp only []
      rw [consSuf_eq_set t _ i s h1, h2]
  · intro hs
    have hsc := (scan_none_find p _).2 hs
    rw [add_tab_apply, if_pos rfl, hsc]
  · rw [stateOf_add, if_pos rfl]
  · intro q hq
    rw [stateOf_add, if_neg hq]

/-! ## Every state made by add has a suffix -/

theorem consSuf_suf_ne (t : Token) (l : List State) (i : Nat)
    (h : ∀ st ∈ l, st.suf ≠ []) : ∀ st ∈ consSuf t l i, st.suf ≠ [] := by
  induction l generalizing i with
  | nil => intro st hst; simp [consSuf] at hst
  | cons sp rest ih =>
    cases i with
    | zero =>
      intro st hst
      simp only [consSuf, List.mem_cons] at hst
      rcases hst with rfl | hst
      · simp
      · exact h st (List.mem_cons_of_mem _ hst)
    | succ i =>
      intro st hst
      simp only [consSuf, List.mem_cons] at hst
      rcases hst with rfl | hst
      · exact h st (List.mem_cons_self _ _)
      · exact ih i (fun s hs => h s (List.mem_cons_of_mem _ hs)) st hst

theorem Reachable.suf_ne {T : Table} (hT : Reachable T) :
    ∀ h st, st ∈ T h → st.suf ≠ [] := by
  induction hT with
  | empty => intro h st hst; simp [emptyTable] at hst
  | add T p t _ ih =>
    intro h st hst
    rw [add_tab_apply] at hst
    by_cases hj : h = hash p
    · simp only [hj, if_true] at hst
      cases hs : scan p (T (hash p)) 0 with
      | none =>
        simp only [hs, List.mem_cons] at hst
        rcases hst with rfl | hst
        · simp
        · exact ih _ st hst
      | some i =>
        simp only [hs] at hst
        exact consSuf_suf_ne t _ i (ih _) st hst
    · simp only [hj, if_false] at hst
      exact ih _ st hst

theorem lookup_false_some (T : Table) (p : Prefix) (sp : Ptr)
    (h : (lookup T p false).1 = some sp) :
    ∃ s, stateOf T p = some s ∧ deref T sp = some s ∧ lookup T p false = (some sp, T) := by
  cases hs : scan p (T (hash p)) 0 with
  | none =>
    rw [lookup_none_false T p hs] at h
    cases h
  | some i =>
    have hl := lookup_some T p false i hs
    rw [hl] at h
    simp only [Option.some.injEq] at h
    subst h
    obtain ⟨st, h1, _, h3⟩ := scan_some_find p _ i hs
    exact ⟨st, h3, h1, hl⟩

theorem genLoop_no_uninit (rnd : Nat → Nat) (T : Table)
    (hne : ∀ h st, st ∈ T h → st.suf ≠ []) (n : Nat) (st : GenState) (hT : st.tab = T) :
    (genLoop rnd n st).2 ≠ Halt.uninitWord := by
  induction n generalizing st with
  | zero => intro hc; cases hc
  | succ n ih =>
    cases hs : stateOf st.tab st.pfx with
    | none =>
      rw [genLoop_succ_halt rnd n st _ _ (genStep_none rnd st hs)]
      intro hc; cases hc
    | some s =>
      have hmem := (stateOf_mem hs).1
      rw [hT] at hmem
      obtain ⟨x, _, hx⟩ := sample_zero rnd s.suf st.k st.w (hne _ s hmem)
      by_cases hn : x = NONWORD
      · subst hn
        rw [genLoop_succ_halt rnd n st _ _ (genStep_some_sentinel rnd st s hs hx)]
        intro hc; cases hc
      · rw [genLoop_succ_go rnd n st _ (genStep_some_word rnd st s x hs hx hn)]
        exact ih _ hT

/-- C18: after any calls of `add` from the empty table every state of the
table has at least one suffix.  So in `generate` on such a table, whenever
`lookup(prefix, 0)` returns a state, the walk over its suffixes makes at least
one step, the first step assigns `w` whatever the draw, the word `w` that is
then compared with `NONWORD` is one of the suffixes of that state, and no run
of `generate` ever compares a `w` that was not assigned. -/
theorem C18_suffixes_nonempty (T : Table) (hT : Reachable T) :
    (∀ h st, st ∈ T h → st.suf ≠ [])
    ∧ (∀ (rnd : Nat → Nat) (st : GenState) (sp : Ptr), st.tab = T →
        (lookup T st.pfx false).1 = some sp →
        ∃ s, deref T sp = some s ∧ s.suf ≠ []
          ∧ (∀ y rest, s.suf = y :: rest →
              sample rnd s.suf 0 st.k st.w = sample rnd rest 1 (st.k + 1) (some y))
          ∧ ∃ x, x ∈ s.suf ∧ (sample rnd s.suf 0 st.k st.w).1 = some x
              ∧ (genStep rnd st).1.w = some x
              ∧ (genStep rnd st).2 ≠ some Halt.uninitWord
              ∧ (genStep rnd st).2 ≠ some Halt.nullState)
    ∧ (∀ (rnd : Nat → Nat) (pfx : Prefix) (nwords : Int) (k : Nat),
        (generate rnd T pfx nwords k).2 ≠ Halt.uninitWord) := by
  have hne := hT.suf_ne
  refine ⟨hne, ?_, ?_⟩
  · intro rnd st sp hst hl
    obtain ⟨s, hs, hd, _⟩ := lookup_false_some T st.pfx sp hl
    have hmem := (stateOf_mem hs).1
    have hsne := hne _ s hmem
    refine ⟨s, hd, hsne, ?_, ?_⟩
    · intro y rest hy
      rw [hy]
      simp [sample, Nat.mod_one]
    · obtain ⟨x, hxm, hx⟩ := sample_zero rnd s.suf st.k st.w hsne
      rw [← hst] at hs
      refine ⟨x, hxm, hx, ?_⟩
      by_cases hn : x = NONWORD
      · subst hn
        rw [genStep_some_sentinel rnd st s hs hx]
        exact ⟨rfl, (fun hc => by cases hc), (fun hc => by cases hc)⟩
      · rw [genStep_some_word rnd st s x hs hx hn]
        exact ⟨rfl, (fun hc => by cases hc), (fun hc => by cases hc)⟩
  · intro rnd pfx nwords k
    rw [generate_eq]
    exact genLoop_no_uninit rnd T hne _ _ rfl

/-- C18 at the table left by `add((NONWORD, NONWORD), "Hello")`. -/
theorem C18_suffixes_nonempty_witness :
    Reachable (add emptyTable (NONWORD, NONWORD) (tok "Hello")).1
    ∧ ((∀ h st, st ∈ (add emptyTable (NONWORD, NONWORD) (tok "Hello")).1 h → st.suf ≠ [])
      ∧ (∀ (rnd : Nat → Nat) (st : GenState) (sp : Ptr),
          st.tab = (add emptyTable (NONWORD, NONWORD) (tok "Hello")).1 →
          (lookup (add emptyTable (NONWORD, NONWORD) (tok "Hello")).1 st.pfx false).1
            = some sp →
          ∃ s, deref (add emptyTable (NONWORD, NONWORD) (tok "Hello")).1 sp = some s
            ∧ s.suf ≠ []
            ∧ (∀ y rest, s.suf = y :: rest →
                sample rnd s.suf 0 st.k st.w = sample rnd rest 1 (st.k + 1) (some y))
            ∧ ∃ x, x ∈ s.suf ∧ (sample rnd s.suf 0 st.k st.w).1 = some x
                ∧ (genStep rnd st).1.w = some x
                ∧ (genStep rnd st).2 ≠ some Halt.uninitWord
                ∧ (genStep rnd st).2 ≠ some Halt.nullState)
      ∧ (∀ (rnd : Nat → Nat) (pfx : Prefix) (nwords : Int) (k : Nat),
          (generate rnd (add emptyTable (NONWORD, NONWORD) (tok "Hello")).1 pfx nwords k).2
            ≠ Halt.uninitWord)) :=
  ⟨Reachable.add _ _ _ Reachable.empty,
    C18_suffixes_nonempty _ (Reachable.add _ _ _ Reachable.empty)⟩

/-! ## The hash function -/

theorem hashStr_append (h : Nat) (a b : Token) :
    hashStr h (a ++ b) = hashStr (hashStr h a) b := by
  simp [hashStr, List.foldl_append]

theorem hash_eq_hashStr (s : Prefix) : hash s = hashStr 0 (s.1 ++ s.2) % NHASH := by
  rw [hashStr_append]
  rfl

/-- The 32-bit wraparound does not show modulo 4096. -/
theorem hashStr_mod (s : List Nat) (h h1 : Nat) (hh : h % 4096 = h1 % 4096) :
    hashStr h s % 4096 = polyAcc h1 s % 4096 := by
  induction s generalizing h h1 with
  | nil => exact hh
  | cons b rest ih =>
    have e1 : hashStr h (b :: rest) = hashStr ((31 * h + b) % 2 ^ 32) rest := rfl
    have e2 : polyAcc h1 (b :: rest) = polyAcc (31 * h1 + b) rest := rfl
    rw [e1, e2]
    apply ih
    rw [Nat.mod_mod_of_dvd _ (by decide : 4096 ∣ 2 ^ 32)]
    omega

theorem polyAcc_snoc (h : Nat) (l : List Nat) (x : Nat) :
    polyAcc h (l ++ [x]) = 31 * polyAcc h l + x := by
  simp [polyAcc, List.foldl_append]

theorem polyAcc_eq_polySum (bs : List Nat) : polyAcc 0 bs = polySum bs := by
  induction bs using List.reverseRecOn with
  | nil => rfl
  | append_singleton l x ih =>
    rw [polyAcc_snoc, ih]
    unfold polySum
    have hlen : (l ++ [x]).length = l.length + 1 := by simp
    rw [hlen, Finset.sum_range_succ, Finset.mul_sum]
    congr 1
    · apply Finset.sum_congr rfl
      intro j hj
      have hj2 : j < l.length := Finset.mem_range.1 hj
      have e1 : (l ++ [x]).getD j 0 = l.getD j 0 := by
        rw [List.getD_eq_getElem?_getD, List.getD_eq_getElem?_getD,
          List.getElem?_append_left hj2]
      have e2 : l.length + 1 - 1 - j = (l.length - 1 - j) + 1 := by omega
      rw [e1, e2, pow_succ]
      ring
    · have e1 : (l ++ [x]).getD l.length 0 = x := by
        rw [List.getD_eq_getElem?_getD, List.getElem?_append_right (Nat.le_refl _)]
        simp
      rw [e1]
      simp

/-- C19: for every pair of strings `(s_0, s_1)`, with `b_1 .. b_L` the bytes of
`s_0` followed by those of `s_1`, `hash` returns the sum of `b_j * 31^(L-j)`
modulo 4096, computed without any wraparound: the wraparound of the 32-bit
accumulator does not change the result, since 4096 divides `2^32`.  The result
is below `NHASH`, a valid index into `statetab`. -/
theorem C19_hash_formula (s0 s1 : Token) :
    hash (s0, s1) = polySum (s0 ++ s1) % 4096
    ∧ hash (s0, s1) = polyAcc 0 (s0 ++ s1) % NHASH
    ∧ hashStr (hashStr 0 s0) s1 % NHASH = polyAcc (polyAcc 0 s0) s1 % NHASH
    ∧ hash (s0, s1) < NHASH := by
  have h1 : hash (s0, s1) = polyAcc 0 (s0 ++ s1) % 4096 := by
    rw [hash_eq_hashStr]
    exact hashStr_mod _ 0 0 rfl
  refine ⟨by rw [h1, polyAcc_eq_polySum], h1, ?_, hash_lt _⟩
  have h2 : hashStr (hashStr 0 s0) s1 % NHASH = hash (s0, s1) := rfl
  rw [h2, h1]
  simp [polyAcc, List.foldl_append, NHASH]

theorem hash_ab_c : hash (tok "ab", tok "c") = 2146 ∧ polySum (tok "abc") = 96354 := by
  decide

/-- C20: `hash` depends only on the bytes of the two key words put together,
not on where the first word ends: when `a ++ b = c ++ d` the keys `(a, b)` and
`(c, d)` have the same hash value.  Two such keys, when different, share a
chain, and only the word-by-word comparison of `lookup` tells them apart:
after `add((a, b), x)` and `add((c, d), y)` both states sit in the one chain,
each key still has its own state, and the state `lookup` returns for a key has
that very key. -/
theorem C20_hash_concat (a b c d : Token) (h : a ++ b = c ++ d) :
    hash (a, b) = hash (c, d)
    ∧ (∀ (T : Table) (x y : Token), (a, b) ≠ (c, d) →
        (∃ s1 s2, s1 ∈ (add (add T (a, b) x).1 (c, d) y).1 (hash (a, b))
          ∧ s2 ∈ (add (add T (a, b) x).1 (c, d) y).1 (hash (a, b))
          ∧ s1.pref = (a, b) ∧ s2.pref = (c, d)
          ∧ stateOf (add (add T (a, b) x).1 (c, d) y).1 (a, b) = some s1
          ∧ stateOf (add (add T (a, b) x).1 (c, d) y).1 (c, d) = some s2
          ∧ stateOf (add T (a, b) x).1 (a, b) = some s1))
    ∧ (∀ (T : Table) (p : Prefix) (sp : Ptr) (s : State),
        (lookup T p false).1 = some sp → deref T sp = some s → s.pref = p) := by
  have hh : hash (a, b) = hash (c, d) := by
    rw [hash_eq_hashStr, hash_eq_hashStr]
    simp only [h]
  refine ⟨hh, ?_, ?_⟩
  · intro T x y hne
    have e1 : stateOf (add T (a, b) x).1 (a, b)
        = some ⟨(a, b), x :: ((stateOf T (a, b)).map State.suf).getD []⟩ := by
      rw [stateOf_add, if_pos rfl]
    have e2 : stateOf (add (add T (a, b) x).1 (c, d) y).1 (a, b)
        = some ⟨(a, b), x :: ((stateOf T (a, b)).map State.suf).getD []⟩ := by
      rw [stateOf_add, if_neg hne, e1]
    have e3 : stateOf (add (add T (a, b) x).1 (c, d) y).1 (c, d)
        = some ⟨(c, d), y :: ((stateOf (add T (a, b) x).1 (c, d)).map State.suf).getD []⟩ := by
      rw [stateOf_add, if_pos rfl]
    refine ⟨_, _, (stateOf_mem e2).1, ?_, rfl, rfl, e2, e3, e1⟩
    rw [hh]
    exact (stateOf_mem e3).1
  · intro T p sp s hl hd
    obtain ⟨s0, h1, h2, _⟩ := lookup_false_some T p sp hl
    rw [h2] at hd
    cases hd
    exact (stateOf_mem h1).2

/-- C20 at the keys `("ab", "c")` and `("a", "bc")`. -/
theorem C20_hash_concat_witness :
    tok "ab" ++ tok "c" = tok "a" ++ tok "bc"
    ∧ (hash (tok "ab", tok "c") = hash (tok "a", tok "bc")
      ∧ (∀ (T : Table) (x y : Token), (tok "ab", tok "c") ≠ (tok "a", tok "bc") →
          (∃ s1 s2,
            s1 ∈ (add (add T (tok "ab", tok "c") x).1 (tok "a", tok "bc") y).1
                (hash (tok "ab", tok "c"))
            ∧ s2 ∈ (add (add T (tok "ab", tok "c") x).1 (tok "a", tok "bc") y).1
                (hash (tok "ab", tok "c"))
            ∧ s1.pref = (tok "ab", tok "c") ∧ s2.pref = (tok "a", tok "bc")
            ∧ stateOf (add (add T (tok "ab", tok "c") x).1 (tok "a", tok "bc") y).1
                (tok "ab", tok "c") = some s1
            ∧ stateOf (add (add T (tok "ab", tok "c") x).1 (tok "a", tok "bc") y).1
                (tok "a", tok "bc") = some s2
            ∧ stateOf (add T (tok "ab", tok "c") x).1 (tok "ab", tok "c") = some s1))
      ∧ (∀ (T : Table) (p : Prefix) (sp : Ptr) (s : State),
          (lookup T p false).1 = some sp → deref T sp = some s → s.pref = p)) :=
  ⟨by decide, C20_hash_concat (tok "ab") (tok "c") (tok "a") (tok "bc") (by decide)⟩

theorem chain_ab_c :
    (add (add emptyTable (tok "ab", tok "c") (tok "x")).1 (tok "a", tok "bc") (tok "y")).1
        (hash (tok "ab", tok "c"))
      = [⟨(tok "ab", tok "c"), [tok "x"]⟩, ⟨(tok "a", tok "bc"), [tok "y"]⟩]
    ∨ (add (add emptyTable (tok "ab", tok "c") (tok "x")).1 (tok "a", tok "bc") (tok "y")).1
        (hash (tok "ab", tok "c"))
      = [⟨(tok "a", tok "bc"), [tok "y"]⟩, ⟨(tok "ab", tok "c"), [tok "x"]⟩] := by
  decide

/-! ## The number of words generate prints -/

/-- C4: on every table that `add` builds, for every start window, `nwords` and
draw sequence for which the lookups of the run succeed (the run meets no `NULL`
state), `generate` prints at most `max(nwords, 0)` words after the start window
(none when `nwords` is 0 or less); it prints fewer than `nwords` exactly when
the word sampled at some turn is `NONWORD`, and then it leaves the loop at that
turn, the word sampled last being `NONWORD`, without printing it: no word
printed after the start window is `NONWORD`.  On such a table `w` is always
assigned before it is compared. -/
theorem C4_generate_count (rnd : Nat → Nat) (tab : Table) (hT : Reachable tab)
    (pfx : Prefix) (nwords : Int) (k : Nat)
    (hnull : (generate rnd tab pfx nwords k).2 ≠ Halt.nullState) :
    ((sampled (generate rnd tab pfx nwords k)).length : Int) ≤ max nwords 0
    ∧ (nwords ≤ 0 → sampled (generate rnd tab pfx nwords k) = [])
    ∧ (((sampled (generate rnd tab pfx nwords k)).length : Int) < nwords
        ↔ (generate rnd tab pfx nwords k).2 = Halt.sentinel)
    ∧ ((generate rnd tab pfx nwords k).2 = Halt.sentinel →
        (generate rnd tab pfx nwords k).1.w = some NONWORD)
    ∧ (∀ w ∈ sampled (generate rnd tab pfx nwords k), w ≠ NONWORD)
    ∧ (generate rnd tab pfx nwords k).1.out
        = [pfx.1, pfx.2] ++ sampled (generate rnd tab pfx nwords k)
    ∧ (generate rnd tab pfx nwords k).2 ≠ Halt.uninitWord := by
  have hinit : (generate rnd tab pfx nwords k).2 ≠ Halt.uninitWord := by
    rw [generate_eq]
    exact genLoop_no_uninit rnd tab hT.suf_ne _ _ rfl
  obtain ⟨c1, c2, c3, c4, c5, c6⟩ :=
    generate_count_of_sound_run rnd tab pfx nwords k hnull hinit
  exact ⟨c1, c2, c3, c4, c5, c6, hinit⟩

/-- C4 at the table of the one-word text "Hello" with `nwords = 5`. -/
theorem C4_generate_count_witness :
    Reachable (mainBuild (fun _ => 0) [tok "Hello"]).tab
    ∧ (generate (fun _ => 0) (mainBuild (fun _ => 0) [tok "Hello"]).tab
        (NONWORD, NONWORD) 5 0).2 ≠ Halt.nullState
    ∧ (((sampled (generate (fun _ => 0) (mainBuild (fun _ => 0) [tok "Hello"]).tab
          (NONWORD, NONWORD) 5 0)).length : Int) ≤ max 5 0
      ∧ ((5 : Int) ≤ 0 → sampled (generate (fun _ => 0)
          (mainBuild (fun _ => 0) [tok "Hello"]).tab (NONWORD, NONWORD) 5 0) = [])
      ∧ (((sampled (generate (fun _ => 0) (mainBuild (fun _ => 0) [tok "Hello"]).tab
          (NONWORD, NONWORD) 5 0)).length : Int) < 5
          ↔ (generate (fun _ => 0) (mainBuild (fun _ => 0) [tok "Hello"]).tab
              (NONWORD, NONWORD) 5 0).2 = Halt.sentinel)
      ∧ ((generate (fun _ => 0) (mainBuild (fun _ => 0) [tok "Hello"]).tab
              (NONWORD, NONWORD) 5 0).2 = Halt.sentinel →
          (generate (fun _ => 0) (mainBuild (fun _ => 0) [tok "Hello"]).tab
              (NONWORD, NONWORD) 5 0).1.w = some NONWORD)
      ∧ (∀ w ∈ sampled (generate (fun _ => 0) (mainBuild (fun _ => 0) [tok "Hello"]).tab
              (NONWORD, NONWORD) 5 0), w ≠ NONWORD)
      ∧ (generate (fun _ => 0) (mainBuild (fun _ => 0) [tok "Hello"]).tab
              (NONWORD, NONWORD) 5 0).1.out
          = [NONWORD, NONWORD] ++ sampled (generate (fun _ => 0)
              (mainBuild (fun _ => 0) [tok "Hello"]).tab (NONWORD, NONWORD) 5 0)
      ∧ (generate (fun _ => 0) (mainBuild (fun _ => 0) [tok "Hello"]).tab
              (NONWORD, NONWORD) 5 0).2 ≠ Halt.uninitWord) :=
  ⟨mainBuild_reachable _ _, by decide,
    C4_generate_count (fun _ => 0) (mainBuild (fun _ => 0) [tok "Hello"]).tab
      (mainBuild_reachable _ _) (NONWORD, NONWORD) 5 0 (by decide)⟩

/-- A run that prints fewer words than asked: on the text "The cat" with three
words asked, the first word sampled after the start window is `NONWORD`. -/
theorem run_the_cat_stops :
    sampled (mainRun (fun _ => 0) [tok "The", tok "cat"] 3) = []
    ∧ (mainRun (fun _ => 0) [tok "The", tok "cat"] 3).1.out = [tok "The", tok "cat"]
    ∧ (mainRun (fun _ => 0) [tok "The", tok "cat"] 3).2 = Halt.sentinel := by
  decide

end Markov
